import Mathlib

/-!
obsidian_exporter: the link-resolution traversal of `main.go`.

A shallow embedding of `nestingFiles`, `nestingMedia`, `isImageFile`,
`getFilePathByName`, `copyFile`, `copyMatchingFiles` and `parseFileBFS`.

Go strings are lists of characters (`Str`).  The library functions the program
calls are embedded as follows.

* `filepath.Ext`, `strings.TrimSuffix`, `strings.Index`, `strings.ToLower`
  are written out from their Go definitions (Unix path separator).
* The two regular expressions are written out as matchers that follow Go's
  leftmost-first semantics: the match starts at the leftmost possible
  position, a lazy `.*?` takes the shortest run of characters other than a
  line feed that lets the rest of the pattern match, and
  `FindAllStringSubmatch` resumes right after the previous match.
* `norm.NFC.String` and `filepath.Join` are parameters (`Env.nfc`,
  `Env.join`).
* The file system is read through `Env`: the sequence of callbacks that
  `filepath.Walk` makes for a root, and what opening and reading a path
  gives.  The export tree the program writes is explicit state (`Tree`).
  The source directories are taken not to contain the export tree, so what
  the program writes does not change what it later reads.
* `int` is `Int`: a queued level is at most `LevelNesting + 1`, which fits the
  machine integer unless `LevelNesting` is the largest `int`.
-/

namespace ObsidianExporter

/-- A Go string, as its sequence of characters. -/
abbrev Str := List Char

/-! ## String helpers from the Go standard library -/

/-- The loop of `filepath.Ext`, run over the reversed path: `acc` holds the
characters already passed, in their original order. -/
def extLoop : List Char → List Char → Str
  | [], _ => []
  | c :: r, acc =>
    if c = '/' then []
    else if c = '.' then c :: acc
    else extLoop r (c :: acc)

/-- `filepath.Ext`: the suffix starting at the last dot of the last path
element, empty when that element has no dot. -/
def Ext (path : Str) : Str := extLoop path.reverse []

/-- `strings.TrimSuffix`. -/
def TrimSuffix (s suffix : Str) : Str :=
  if suffix.isSuffixOf s then s.take (s.length - suffix.length) else s

/-- `strings.Index` for a one-character separator: the position of its first
occurrence, `-1` when there is none. -/
def Index (s : Str) (sep : Char) : Int :=
  if sep ∈ s then (s.indexOf sep : Nat) else -1

/-- `unicode.ToLower` on one character.  The only characters whose lower case
is an ASCII letter are `A`..`Z`, U+0130 (to `i`) and U+212A (to `k`); the lower
case of any other character is outside ASCII and is left as it is here, which
no comparison with an ASCII string can tell apart. -/
def toLowerRune (c : Char) : Char :=
  if 'A' ≤ c ∧ c ≤ 'Z' then Char.ofNat (c.toNat + 32)
  else if c = 'İ' then 'i'
  else if c = 'K' then 'k'
  else c

/-- `strings.ToLower`. -/
def ToLower (s : Str) : Str := s.map toLowerRune

/-! ## Link extractor -/

/-- The list `imageExtensions` of `isImageFile`. -/
def imageExtensions : List Str :=
  [".png".toList, ".jpg".toList, ".jpeg".toList, ".gif".toList, ".bmp".toList,
   ".tiff".toList, ".svg".toList]

/-- `isImageFile`. -/
def isImageFile (filename : Str) : Bool :=
  let ext := ToLower (Ext filename)
  imageExtensions.any (fun imageExt => ext == imageExt)

/-- The closing `\]\]` at the front of the text: the text after it. -/
def closeBrackets : List Char → Option Str
  | a :: b :: rest => if a = ']' ∧ b = ']' then some rest else none
  | _ => none

/-- The tail `(.*?)\]\]` of the document-link pattern, matched at the front of
the text: the lazy group takes the shortest run of characters without a line
feed that is followed by `]]`.  Gives the group and the text after `]]`. -/
def lazyToClose : List Char → Option (Str × Str)
  | [] => none
  | c :: t =>
    match closeBrackets (c :: t) with
    | some rest => some ([], rest)
    | none =>
      if c = '\n' then none
      else (lazyToClose t).map (fun r => (c :: r.1, r.2))

/-- The pattern `\[\[(.*?)\]\]` matched at the front of the text: group 1 and
the text after the match. -/
def matchFileLink : List Char → Option (Str × Str)
  | a :: b :: t => if a = '[' ∧ b = '[' then lazyToClose t else none
  | _ => none

/-- `FindAllStringSubmatch` for `\[\[(.*?)\]\]`, keeping group 1 of every
match.  `skip` counts the characters of the previous match still to pass
over, so that matches do not overlap. -/
def findFileLinks : Nat → List Char → List Str
  | _, [] => []
  | skip + 1, _ :: t => findFileLinks skip t
  | 0, c :: t =>
    match matchFileLink (c :: t) with
    | some (g, rest) => g :: findFileLinks ((c :: t).length - rest.length - 1) t
    | none => findFileLinks 0 t

/-- What `nestingFiles` appends for one match, given its group 1. -/
def fileLinkName (m1 : Str) : Option Str :=
  if isImageFile m1 then none
  else
    let idx := Index m1 '|'
    if idx ≠ -1 then some (m1.take idx.toNat) else some m1

/-- `nestingFiles`. -/
def nestingFiles (content : Str) : List Str :=
  (findFileLinks 0 content).filterMap fileLinkName

/-- The class `[0-9]`. -/
def isDigit (c : Char) : Bool := decide ('0' ≤ c ∧ c ≤ '9')

/-- The tail `(\|[0-9]*)?\]\]` of the media pattern at the front of the text.
The optional group is tried first, with as many digits as there are (fewer
digits would leave a digit in front of `\]`); then the pattern is tried
without the group. -/
def hintAndClose : List Char → Option Str
  | [] => none
  | c :: t =>
    if c = '|' then
      match closeBrackets (t.dropWhile isDigit) with
      | some rest => some rest
      | none => closeBrackets (c :: t)
    else closeBrackets (c :: t)

/-- The tail `(.*?)(\|[0-9]*)?\]\]` of the media pattern at the front of the
text: group 1 is the shortest run of characters without a line feed after
which the rest of the pattern matches. -/
def lazyToHintClose : List Char → Option (Str × Str)
  | [] => none
  | c :: t =>
    match hintAndClose (c :: t) with
    | some rest => some ([], rest)
    | none =>
      if c = '\n' then none
      else (lazyToHintClose t).map (fun r => (c :: r.1, r.2))

/-- The pattern `!\[\[(.*?)(\|[0-9]*)?\]\]` matched at the front of the text:
group 1 and the text after the match. -/
def matchMediaLink : List Char → Option (Str × Str)
  | a :: b :: c :: t => if a = '!' ∧ b = '[' ∧ c = '[' then lazyToHintClose t else none
  | _ => none

/-- `FindAllStringSubmatch` for the media pattern, keeping group 1. -/
def findMediaLinks : Nat → List Char → List Str
  | _, [] => []
  | skip + 1, _ :: t => findMediaLinks skip t
  | 0, c :: t =>
    match matchMediaLink (c :: t) with
    | some (g, rest) => g :: findMediaLinks ((c :: t).length - rest.length - 1) t
    | none => findMediaLinks 0 t

/-- `nestingMedia`. -/
def nestingMedia (content : Str) : List Str :=
  (findMediaLinks 0 content).map (fun m1 => TrimSuffix m1 (Ext m1))

/-! ## File system -/

/-- A Go `error` value, by the operation that gave it. -/
inductive GoError
  | walkErr
  | openErr
  | createErr
  | copyErr
  | mkdirErr
  deriving DecidableEq, Repr

/-- The part of `os.FileInfo` the program reads. -/
structure FileInfo where
  /-- `info.Name()`: the base name of the entry. -/
  Name : Str
  /-- `info.IsDir()`. -/
  IsDir : Bool
  deriving DecidableEq, Repr

/-- One call that `filepath.Walk` makes to its callback. -/
inductive WalkCall
  /-- A call with a nil error. -/
  | visit (path : Str) (info : FileInfo)
  /-- A call with a non-nil error. -/
  | failure (path : Str) (err : GoError)
  deriving DecidableEq, Repr

/-- What opening and reading one file gives. -/
structure FileData where
  /-- The lines `bufio.Scanner` yields before it stops. -/
  lines : List Str
  /-- The bytes `io.Copy` transfers. -/
  data : Str
  /-- The error of `io.Copy`, if any. -/
  copyErr : Option GoError

/-- The library functions taken as given, and the file system as the program
reads it. -/
structure Env where
  /-- `norm.NFC.String`. -/
  nfc : Str → Str
  /-- `filepath.Join` of two elements. -/
  join : Str → Str → Str
  /-- The calls `filepath.Walk root` makes, in order, to a callback that
  never asks to skip. -/
  walk : Str → List WalkCall
  /-- `os.Open`: `none` when it fails. -/
  file : Str → Option FileData
  /-- The error of `os.Create`, if any. -/
  create : Str → Option GoError
  /-- The error of `os.MkdirAll`, if any. -/
  mkdirAll : Str → Option GoError

/-- The export tree: the files written so far with their content, the latest
write first. -/
abbrev Tree := List (Str × Str)

/-- The callback of `getFilePathByName` folded over the calls of the walk;
`filePath` is the captured variable.  The walk stops at the first call the
callback answers with an error. -/
def getFilePathByNameWalk (env : Env) (filename : Str) :
    List WalkCall → Str → Str × Option GoError
  | [], filePath => (filePath, none)
  | WalkCall.failure _ err :: _, filePath => (filePath, some err)
  | WalkCall.visit path info :: rest, filePath =>
    if !info.IsDir then
      let fileName := info.Name
      let fileNameWithoutExt := TrimSuffix fileName (Ext fileName)
      let normalizedFileName := env.nfc fileNameWithoutExt
      let normalizedFileNameWithoutExt := env.nfc filename
      if normalizedFileName = normalizedFileNameWithoutExt then
        getFilePathByNameWalk env filename rest path
      else getFilePathByNameWalk env filename rest filePath
    else getFilePathByNameWalk env filename rest filePath

/-- `getFilePathByName`. -/
def getFilePathByName (env : Env) (sourceDir filename : Str) : Str × Option GoError :=
  getFilePathByNameWalk env filename (env.walk sourceDir) []

/-- `copyFile`: the tree after the call and the error returned. -/
def copyFile (env : Env) (src dst : Str) (tree : Tree) : Tree × Option GoError :=
  match env.file src with
  | none => (tree, some GoError.openErr)
  | some sourceFile =>
    match env.create dst with
    | some err => (tree, some err)
    | none => ((dst, sourceFile.data) :: tree, sourceFile.copyErr)

/-- The callback of `copyMatchingFiles` folded over the calls of the walk. -/
def copyMatchingFilesWalk (env : Env) (nestingsDir : Str) (matchSet : List Str) :
    List WalkCall → Tree → Tree × Option GoError
  | [], tree => (tree, none)
  | WalkCall.failure _ err :: _, tree => (tree, some err)
  | WalkCall.visit path info :: rest, tree =>
    if !info.IsDir then
      let fileName := info.Name
      let fileNameWithoutExt := TrimSuffix fileName (Ext fileName)
      if fileNameWithoutExt ∈ matchSet then
        let destPath := env.join nestingsDir fileName
        match copyFile env path destPath tree with
        | (tree1, some err) => (tree1, some err)
        | (tree1, none) => copyMatchingFilesWalk env nestingsDir matchSet rest tree1
      else copyMatchingFilesWalk env nestingsDir matchSet rest tree
    else copyMatchingFilesWalk env nestingsDir matchSet rest tree

/-- `copyMatchingFiles`. -/
def copyMatchingFiles (env : Env) (sourceDir nestingsDir : Str) (matches_ : List Str)
    (tree : Tree) : Tree × Option GoError :=
  match env.mkdirAll nestingsDir with
  | some err => (tree, some err)
  | none => copyMatchingFilesWalk env nestingsDir matches_ (env.walk sourceDir) tree

/-! ## Traversal engine -/

/-- `Config`. -/
structure Config where
  ParseFilePath : Str
  BlackList : List Str
  FilesPaths : List Str
  MediaPath : Str
  LevelNesting : Int

/-- The directory the documents are copied to. -/
def docsDir : Str := "выгрузка/вложенные файлы".toList

/-- The directory the media files are copied to. -/
def mediaDir : Str := "выгрузка/вложенные медиа".toList

/-- An element of the queue of `parseFileBFS`. -/
structure Item where
  file : Str
  level : Int
  deriving DecidableEq, Repr

/-- The result of the loop over `cfg.FilesPaths` (lines 113-127). -/
structure Found where
  /-- The variable `filePath` after the loop. -/
  filePath : Str
  /-- The directories `getFilePathByName` was called on, in order. -/
  searched : List Str
  /-- The error of the `copyFile` call, if the call was made and failed. -/
  copyErr : Option GoError
  /-- The export tree after the loop. -/
  tree : Tree

/-- The loop over `cfg.FilesPaths`: the first directory that gives a
non-empty path ends the loop, after the file is copied to
`<docsDir>/<file>.md`. -/
def findAndCopy (env : Env) (file : Str) : List Str → Tree → Found
  | [], tree => { filePath := [], searched := [], copyErr := none, tree := tree }
  | sourceDir :: rest, tree =>
    let filePath := (getFilePathByName env sourceDir file).1
    if filePath ≠ [] then
      let destPath := env.join docsDir (file ++ ".md".toList)
      let r := copyFile env filePath destPath tree
      { filePath := filePath, searched := [sourceDir], copyErr := r.2, tree := r.1 }
    else
      let r := findAndCopy env file rest tree
      { r with searched := sourceDir :: r.searched }

/-- What one iteration of the queue loop did with the item it took. -/
inductive Outcome
  /-- Dropped at line 101: the level exceeds `LevelNesting`. -/
  | tooDeep
  /-- Dropped at line 105: the name is in the blacklist. -/
  | blackListed
  /-- Dropped at line 108: the name is in `parsedFiles`. -/
  | alreadyParsed
  /-- Marked as parsed, no directory gave a path (line 128). -/
  | notFound (searched : List Str)
  /-- Marked as parsed and `copyFile` called, `os.Open` failed (line 134). -/
  | openFailed (searched : List Str) (filePath : Str) (copyErr : Option GoError)
  /-- Marked as parsed, `copyFile` called, the file read and its links put on
  the queue. -/
  | expanded (searched : List Str) (filePath : Str) (copyErr : Option GoError)
      (filesMatches mediaMatches : List Str) (mediaErr : Option GoError)
  deriving DecidableEq, Repr

/-- The state of the queue loop of `parseFileBFS`. -/
structure State where
  queue : List Item
  /-- The keys of the map `parsedFiles`. -/
  parsedFiles : List Str
  /-- The export tree. -/
  tree : Tree
  /-- The files opened at line 133: `file.Close` is deferred, so they stay open
  until `parseFileBFS` returns. -/
  openFiles : List Str
  /-- The items taken from the queue so far, in order, each with what was done
  with it. -/
  trace : List (Item × Outcome)

/-- The state before the first iteration, on an export tree `tree`. -/
def initState (filename : Str) (tree : Tree) : State :=
  { queue := [{ file := filename, level := 1 }], parsedFiles := [], tree := tree,
    openFiles := [], trace := [] }

/-- One iteration of the loop `for len(queue) > 0` (lines 97-164). -/
def step (env : Env) (cfg : Config) (s : State) : State :=
  match s.queue with
  | [] => s
  | current :: queue =>
    if current.level > cfg.LevelNesting then
      { s with queue := queue, trace := s.trace ++ [(current, Outcome.tooDeep)] }
    else if current.file ∈ cfg.BlackList then
      { s with queue := queue, trace := s.trace ++ [(current, Outcome.blackListed)] }
    else if current.file ∈ s.parsedFiles then
      { s with queue := queue, trace := s.trace ++ [(current, Outcome.alreadyParsed)] }
    else
      let parsedFiles := current.file :: s.parsedFiles
      let found := findAndCopy env current.file cfg.FilesPaths s.tree
      if found.filePath = [] then
        { s with queue := queue, parsedFiles := parsedFiles, tree := found.tree,
                 trace := s.trace ++ [(current, Outcome.notFound found.searched)] }
      else
        match env.file found.filePath with
        | none =>
          { s with queue := queue, parsedFiles := parsedFiles, tree := found.tree,
                   trace := s.trace ++
                     [(current, Outcome.openFailed found.searched found.filePath found.copyErr)] }
        | some file =>
          let filesMatches := file.lines.flatMap nestingFiles
          let mediaMatches := file.lines.flatMap nestingMedia
          let media := copyMatchingFiles env cfg.MediaPath mediaDir mediaMatches found.tree
          { queue := queue ++ filesMatches.map (fun m => { file := m, level := current.level + 1 }),
            parsedFiles := parsedFiles,
            tree := media.1,
            openFiles := s.openFiles ++ [found.filePath],
            trace := s.trace ++
              [(current, Outcome.expanded found.searched found.filePath found.copyErr
                  filesMatches mediaMatches media.2)] }

/-- The state after `n` iterations. -/
def run (env : Env) (cfg : Config) : Nat → State → State
  | 0, s => s
  | n + 1, s => run env cfg n (step env cfg s)

/-- The loop of `parseFileBFS` with a bound on the number of iterations:
`none` when the queue is not empty after `fuel` iterations. -/
def loop (env : Env) (cfg : Config) : Nat → State → Option State
  | 0, s => if s.queue = [] then some s else none
  | fuel + 1, s => if s.queue = [] then some s else loop env cfg fuel (step env cfg s)

/-- `parseFileBFS`: the state at the return, when the loop ends within `fuel`
iterations.  The deferred `file.Close` calls run at the return. -/
def parseFileBFS (env : Env) (cfg : Config) (filename : Str) (tree : Tree) (fuel : Nat) :
    Option State :=
  (loop env cfg fuel (initState filename tree)).map (fun s => { s with openFiles := [] })

/-! ## Vocabulary of the claims -/

/-- The walk call reports a regular file whose name, without its extension and
normalized, equals the normalized logical name. -/
def isMatchingFile (env : Env) (filename : Str) : WalkCall → Bool
  | WalkCall.visit _ info =>
    !info.IsDir && decide (env.nfc (TrimSuffix info.Name (Ext info.Name)) = env.nfc filename)
  | WalkCall.failure _ _ => false

/-- The path a walk call carries. -/
def WalkCall.path : WalkCall → Str
  | WalkCall.visit path _ => path
  | WalkCall.failure path _ => path

/-- The walk call carries an error. -/
def WalkCall.isFailure : WalkCall → Bool
  | WalkCall.visit _ _ => false
  | WalkCall.failure _ _ => true

/-- The calls of a walk before its first error. -/
def walkedCalls (calls : List WalkCall) : List WalkCall :=
  calls.takeWhile (fun c => !c.isFailure)

/-- The paths of the matching files a walk reports, in walk order. -/
def matchingPaths (env : Env) (filename : Str) (calls : List WalkCall) : List Str :=
  ((walkedCalls calls).filter (isMatchingFile env filename)).map WalkCall.path

/-- The iteration went past line 111: the name was marked as parsed. -/
def Outcome.processed : Outcome → Bool
  | Outcome.tooDeep => false
  | Outcome.blackListed => false
  | Outcome.alreadyParsed => false
  | Outcome.notFound _ => true
  | Outcome.openFailed _ _ _ => true
  | Outcome.expanded _ _ _ _ _ _ => true

/-- The iteration called `copyFile` for the document and the call returned
nil. -/
def Outcome.copied : Outcome → Bool
  | Outcome.openFailed _ _ copyErr => copyErr.isNone
  | Outcome.expanded _ _ copyErr _ _ _ => copyErr.isNone
  | _ => false

/-- The names the iteration put on the queue. -/
def Outcome.children : Outcome → List Str
  | Outcome.expanded _ _ _ filesMatches _ _ => filesMatches
  | _ => []

/-- The number of iterations of the trace that processed the name. -/
def processedCount (trace : List (Item × Outcome)) (name : Str) : Nat :=
  trace.countP (fun e => decide (e.1.file = name) && e.2.processed)

/-- The path the loop over `cfg.FilesPaths` gives for a name. -/
def resolvePath (env : Env) (cfg : Config) (name : Str) : Str :=
  (findAndCopy env name cfg.FilesPaths []).filePath

/-- The document names that the file of a name links to: what `nestingFiles`
gives on its lines; none when the name does not resolve or the file cannot be
opened. -/
def linksOf (env : Env) (cfg : Config) (name : Str) : List Str :=
  if resolvePath env cfg name = [] then []
  else
    match env.file (resolvePath env cfg name) with
    | none => []
    | some file => file.lines.flatMap nestingFiles

/-- The name resolves and copying its file to the export tree succeeds. -/
def copySucceeds (env : Env) (cfg : Config) (name : Str) : Bool :=
  decide (resolvePath env cfg name ≠ []) &&
    (copyFile env (resolvePath env cfg name) (env.join docsDir (name ++ ".md".toList)) []).2.isNone

/-- `Reach env cfg start k name`: there is a chain of `k` links from `start`
to `name` in which no document is blacklisted (and every document but the last
resolves to a file that can be read, as it has links). -/
inductive Reach (env : Env) (cfg : Config) (start : Str) : Nat → Str → Prop
  | start : start ∉ cfg.BlackList → Reach env cfg start 0 start
  | link {k : Nat} {a b : Str} : Reach env cfg start k a → b ∈ linksOf env cfg a →
      b ∉ cfg.BlackList → Reach env cfg start (k + 1) b

/-- The queue items a processed document of that level adds. -/
def childItems (env : Env) (cfg : Config) (current : Item) : List Item :=
  (linksOf env cfg current.file).map (fun m => { file := m, level := current.level + 1 })

/-- The invariant of the queue loop of `parseFileBFS` started on `start`. -/
structure Inv (env : Env) (cfg : Config) (start : Str) (s : State) : Prop where
  /-- The levels in the queue do not decrease from the front to the back. -/
  sorted : s.queue.Pairwise (fun a b => a.level ≤ b.level)
  /-- The levels in the queue differ by at most one. -/
  span : ∀ a ∈ s.queue, ∀ b ∈ s.queue, b.level ≤ a.level + 1
  /-- The items taken so far are at most as deep as the queued ones. -/
  trace_le : ∀ e ∈ s.trace, ∀ a ∈ s.queue, e.1.level ≤ a.level
  /-- The names in `parsedFiles` are those of the processed items. -/
  parsed_iff : ∀ f, f ∈ s.parsedFiles ↔ ∃ e ∈ s.trace, e.1.file = f ∧ e.2.processed = true
  /-- No name was processed twice. -/
  once : ∀ f, processedCount s.trace f ≤ 1
  /-- A processed item passed the three guards, and what was done with it is
  what the vault gives for its name. -/
  faithful : ∀ e ∈ s.trace, e.2.processed = true →
    e.2.children = linksOf env cfg e.1.file ∧ e.2.copied = copySucceeds env cfg e.1.file ∧
    e.1.level ≤ cfg.LevelNesting ∧ e.1.file ∉ cfg.BlackList
  /-- The start item is queued or was taken. -/
  started : ({ file := start, level := 1 } : Item) ∈ s.queue ∨
    ∃ e ∈ s.trace, e.1 = { file := start, level := 1 }
  /-- Every link of a processed item is queued or was taken, one level deeper. -/
  enqueued : ∀ e ∈ s.trace, e.2.processed = true → ∀ c ∈ linksOf env cfg e.1.file,
    ({ file := c, level := e.1.level + 1 } : Item) ∈ s.queue ∨
    ∃ e2 ∈ s.trace, e2.1 = { file := c, level := e.1.level + 1 }
  /-- The name of an item taken within the depth limit and not blacklisted has
  been processed, at that level or a smaller one. -/
  handled : ∀ e ∈ s.trace, e.1.level ≤ cfg.LevelNesting → e.1.file ∉ cfg.BlackList →
    ∃ e2 ∈ s.trace, e2.1.file = e.1.file ∧ e2.2.processed = true ∧ e2.1.level ≤ e.1.level

/-- The walk call carries a base name: the name of a regular file has no path
separator in it. -/
def hasBaseName : WalkCall → Bool
  | WalkCall.visit _ info => info.IsDir || decide ('/' ∉ info.Name)
  | WalkCall.failure _ _ => true

/-- `Arrives env cfg start k name`: the name is the start document (`k = 0`) or
is linked from a document that `k - 1` links through documents off the
blacklist reach; the name itself may be blacklisted. -/
inductive Arrives (env : Env) (cfg : Config) (start : Str) : Nat → Str → Prop
  | start : Arrives env cfg start 0 start
  | link {k : Nat} {a b : Str} : Reach env cfg start k a → b ∈ linksOf env cfg a →
      Arrives env cfg start (k + 1) b

/-- The second invariant of the queue loop: the order in which items are taken
and where the items come from. -/
structure Order (env : Env) (cfg : Config) (start : Str) (s : State) : Prop where
  /-- The items were taken in non-decreasing order of level. -/
  trace_sorted : s.trace.Pairwise (fun a b => a.1.level ≤ b.1.level)
  /-- The items dropped at line 101 are those deeper than `LevelNesting`. -/
  deep : ∀ e ∈ s.trace, (e.2 = Outcome.tooDeep ↔ cfg.LevelNesting < e.1.level)
  /-- A queued item of level `k + 1` arrives by `k` links. -/
  origin_queue : ∀ a ∈ s.queue, ∃ k : Nat, a.level = (k : Int) + 1 ∧
    Arrives env cfg start k a.file
  /-- An item taken at level `k + 1` arrived by `k` links. -/
  origin_trace : ∀ e ∈ s.trace, ∃ k : Nat, e.1.level = (k : Int) + 1 ∧
    Arrives env cfg start k e.1.file
  /-- The files opened so far are all still open. -/
  still_open : ∀ e ∈ s.trace, ∀ searched filePath copyErr filesMatches mediaMatches mediaErr,
    e.2 = Outcome.expanded searched filePath copyErr filesMatches mediaMatches mediaErr →
    filePath ∈ s.openFiles

/-! ## A sample vault -/

/-- The regular file entry of a walk. -/
def fileCall (path name : String) : WalkCall :=
  WalkCall.visit path.toList { Name := name.toList, IsDir := false }

/-- The directory entry of a walk. -/
def dirCall (path name : String) : WalkCall :=
  WalkCall.visit path.toList { Name := name.toList, IsDir := true }

/-- A file with the given lines that is copied without error. -/
def textFile (lines : List String) : FileData :=
  { lines := lines.map String.toList,
    data := (String.intercalate "\n" lines).toList,
    copyErr := none }

/-- A vault with two document directories `A` and `B` and a media directory
`M`.  `Home` links to `Note` and `Other`, `Note` links back to `Home` and to
`Leaf`.  `Note` has three files: two in `A`, one in `B`. -/
def sampleEnv : Env where
  nfc := id
  join := fun dir name => dir ++ '/' :: name
  walk := fun root =>
    if root = "A".toList then
      [dirCall "A" "A", fileCall "A/Home.md" "Home.md", fileCall "A/Note.md" "Note.md",
       dirCall "A/sub" "sub", fileCall "A/sub/Note.txt" "Note.txt"]
    else if root = "B".toList then
      [dirCall "B" "B", fileCall "B/Leaf.md" "Leaf.md", fileCall "B/Note.md" "Note.md",
       fileCall "B/Other.md" "Other.md"]
    else if root = "M".toList then
      [dirCall "M" "M", fileCall "M/pic.png" "pic.png"]
    else [WalkCall.failure root GoError.walkErr]
  file := fun path =>
    if path = "A/Home.md".toList then
      some (textFile ["# Home", "see [[Note]] and [[Other|the other]]", "![[pic.png]]"])
    else if path = "A/Note.md".toList then some (textFile ["old note"])
    else if path = "A/sub/Note.txt".toList then some (textFile ["back to [[Home]], on to [[Leaf]]"])
    else if path = "B/Note.md".toList then some (textFile ["note in B"])
    else if path = "B/Leaf.md".toList then some (textFile ["leaf"])
    else if path = "B/Other.md".toList then some (textFile ["other"])
    else if path = "M/pic.png".toList then some (textFile ["PNG"])
    else none
  create := fun _ => none
  mkdirAll := fun _ => none

/-- The configuration of the sample vault, for a blacklist and a depth. -/
def sampleCfg (blackList : List String) (levelNesting : Int) : Config :=
  { ParseFilePath := "Home".toList,
    BlackList := blackList.map String.toList,
    FilesPaths := ["A".toList, "B".toList],
    MediaPath := "M".toList,
    LevelNesting := levelNesting }

/-- A normalization for the examples, in place of NFC: it composes `e` followed
by the combining acute accent U+0301 into `é`, and leaves the rest. -/
def composeAcute : List Char → List Char
  | [] => []
  | c :: t =>
    if c = 'e' ∧ (composeAcute t).head? = some '\u0301' then 'é' :: (composeAcute t).tail
    else c :: composeAcute t

/-- A vault with one directory `V` holding `Cafe` + U+0301 `.md` (decomposed
form) and a media directory `M` with `pic.png` in two subdirectories. -/
def accentEnv : Env where
  nfc := composeAcute
  join := fun dir name => dir ++ '/' :: name
  walk := fun root =>
    if root = "V".toList then
      [dirCall "V" "V", fileCall "V/Cafe\u0301.md" "Cafe\u0301.md", fileCall "V/Tea.md" "Tea.md"]
    else if root = "M".toList then
      [dirCall "M" "M", dirCall "M/a" "a", fileCall "M/a/pic.png" "pic.png",
       dirCall "M/b" "b", fileCall "M/b/notes.txt" "notes.txt", fileCall "M/b/pic.png" "pic.png"]
    else [WalkCall.failure root GoError.walkErr]
  file := fun path =>
    if path = "V/Cafe\u0301.md".toList then some (textFile ["![[pic.png]] and ![[clip.mp4|400]]"])
    else if path = "V/Tea.md".toList then some (textFile ["tea"])
    else if path = "M/a/pic.png".toList then some (textFile ["first"])
    else if path = "M/b/pic.png".toList then some (textFile ["second"])
    else if path = "M/b/notes.txt".toList then some (textFile ["notes"])
    else none
  create := fun _ => none
  mkdirAll := fun _ => none

/-- The configuration of the vault `accentEnv`, started on `Café` in composed
form. -/
def accentCfg : Config :=
  { ParseFilePath := "Café".toList,
    BlackList := [],
    FilesPaths := ["V".toList],
    MediaPath := "M".toList,
    LevelNesting := 2 }

/-- A vault where the walk of `A` meets an unreadable directory `A/Locked`
before it would reach `A/Note.md`; `B` holds a `Note.md` too. -/
def lockedEnv : Env where
  nfc := id
  join := fun dir name => dir ++ '/' :: name
  walk := fun root =>
    if root = "A".toList then
      [dirCall "A" "A", WalkCall.failure "A/Locked".toList GoError.walkErr,
       fileCall "A/Note.md" "Note.md"]
    else if root = "B".toList then [dirCall "B" "B", fileCall "B/Note.md" "Note.md"]
    else [WalkCall.failure root GoError.walkErr]
  file := fun path =>
    if path = "A/Note.md".toList then some (textFile ["note in A"])
    else if path = "B/Note.md".toList then some (textFile ["note in B"])
    else none
  create := fun _ => none
  mkdirAll := fun _ => none

/-! ## Facts about the link extractor -/

theorem closeBrackets_cons_ne (c : Char) (t : List Char) (h : c ≠ ']') :
    closeBrackets (c :: t) = none := by
  cases t <;> simp [closeBrackets, h]

theorem closeBrackets_close (rest : List Char) :
    closeBrackets (']' :: ']' :: rest) = some rest := by
  simp [closeBrackets]

theorem lazyToClose_append (g rest : List Char) (h1 : ']' ∉ g) (h2 : '\n' ∉ g) :
    lazyToClose (g ++ ']' :: ']' :: rest) = some (g, rest) := by
  induction g with
  | nil => simp [lazyToClose, closeBrackets_close]
  | cons c t ih =>
    simp only [List.mem_cons, not_or] at h1 h2
    have hc : c ≠ ']' := fun h => h1.1 h.symm
    have hn : c ≠ '\n' := fun h => h2.1 h.symm
    simp [lazyToClose, closeBrackets_cons_ne _ _ hc, hn, ih h1.2 h2.2]

theorem lazyToClose_newline (g rest : List Char) (h1 : ']' ∉ g) (h2 : '\n' ∈ g) :
    lazyToClose (g ++ rest) = none := by
  induction g with
  | nil => simp at h2
  | cons c t ih =>
    simp only [List.mem_cons, not_or] at h1
    have hc : c ≠ ']' := fun h => h1.1 h.symm
    by_cases hn : c = '\n'
    · subst hn
      simp [lazyToClose, closeBrackets_cons_ne _ _ hc]
    · have : '\n' ∈ t := by
        rcases List.mem_cons.1 h2 with h | h
        · exact absurd h.symm hn
        · exact h
      simp [lazyToClose, closeBrackets_cons_ne _ _ hc, hn, ih h1.2 this]

theorem findFileLinks_short (k : Nat) (s : List Char) (h : s.length ≤ k) :
    findFileLinks k s = [] := by
  induction s generalizing k with
  | nil => cases k <;> simp [findFileLinks]
  | cons c t ih =>
    cases k with
    | zero => simp at h
    | succ k => simp only [findFileLinks]; exact ih k (by simpa using h)

theorem matchFileLink_cons_ne (c : Char) (t : List Char) (h : c ≠ '[') :
    matchFileLink (c :: t) = none := by
  cases t <;> simp [matchFileLink, h]

theorem findFileLinks_no_open (k : Nat) (s : List Char) (h : '[' ∉ s) :
    findFileLinks k s = [] := by
  induction s generalizing k with
  | nil => cases k <;> simp [findFileLinks]
  | cons c t ih =>
    simp only [List.mem_cons, not_or] at h
    cases k with
    | succ k => simp only [findFileLinks]; exact ih k h.2
    | zero =>
      simp only [findFileLinks, matchFileLink_cons_ne c t (fun e => h.1 e.symm)]
      exact ih 0 h.2

theorem findFileLinks_none (c : Char) (t : List Char) (h : matchFileLink (c :: t) = none) :
    findFileLinks 0 (c :: t) = findFileLinks 0 t := by
  simp only [findFileLinks, h]

/-- A single link `[[inner]]` whose inner text has no `]` and no line feed is
found as one match with group 1 equal to `inner`. -/
theorem findFileLinks_single (inner : List Char) (h1 : ']' ∉ inner) (h2 : '\n' ∉ inner) :
    findFileLinks 0 ('[' :: '[' :: (inner ++ [']', ']'])) = [inner] := by
  simp only [findFileLinks, matchFileLink, and_self, if_true, lazyToClose_append inner [] h1 h2]
  simp only [List.cons.injEq, true_and]
  apply findFileLinks_short
  simp

theorem isImageFile_iff (f : Str) :
    isImageFile f = true ↔ ToLower (Ext f) ∈ imageExtensions := by
  unfold isImageFile
  simp only [List.any_eq_true, beq_iff_eq]
  constructor
  · rintro ⟨x, hx, e⟩
    rw [e]; exact hx
  · intro h
    exact ⟨_, h, rfl⟩

theorem extLoop_append_stop (r r1 acc : List Char) (h : ∃ c ∈ r, c = '/' ∨ c = '.') :
    extLoop (r ++ r1) acc = extLoop r acc := by
  induction r generalizing acc with
  | nil => simp at h
  | cons c t ih =>
    by_cases h1 : c = '/'
    · simp [extLoop, h1]
    · by_cases h2 : c = '.'
      · simp [extLoop, h2]
      · have : ∃ d ∈ t, d = '/' ∨ d = '.' := by
          obtain ⟨d, hd, hd2⟩ := h
          rcases List.mem_cons.1 hd with e | e
          · subst e; rcases hd2 with e | e
            · exact absurd e h1
            · exact absurd e h2
          · exact ⟨d, e, hd2⟩
        simp [extLoop, h1, h2, ih _ this]

theorem extLoop_append_pass (r r1 acc : List Char) (h : ∀ c ∈ r, c ≠ '/' ∧ c ≠ '.') :
    extLoop (r ++ r1) acc = extLoop r1 (r.reverse ++ acc) := by
  induction r generalizing acc with
  | nil => simp
  | cons c t ih =>
    have hc := h c (List.mem_cons_self _ _)
    have ht : ∀ d ∈ t, d ≠ '/' ∧ d ≠ '.' := fun d hd => h d (List.mem_cons_of_mem _ hd)
    simp [extLoop, hc.1, hc.2, ih _ ht]

theorem extLoop_nil_or_append (r acc : List Char) :
    extLoop r acc = [] ∨ ∃ pre, extLoop r acc = pre ++ acc := by
  induction r generalizing acc with
  | nil => left; rfl
  | cons c t ih =>
    by_cases h1 : c = '/'
    · left; simp [extLoop, h1]
    · by_cases h2 : c = '.'
      · right; exact ⟨[c], by simp [extLoop, h2]⟩
      · rcases ih (c :: acc) with h | ⟨pre, h⟩
        · left; simp [extLoop, h1, h2, h]
        · right; exact ⟨pre ++ [c], by simp [extLoop, h1, h2, h]⟩

theorem not_image_of_bar (e : List Char) (h : '|' ∈ e) : ToLower e ∉ imageExtensions := by
  intro hm
  have hb : '|' ∈ ToLower e := by
    unfold ToLower
    exact List.mem_map.2 ⟨'|', h, by decide⟩
  have hall : ∀ x ∈ imageExtensions, '|' ∉ x := by decide
  exact hall _ hm hb

/-- The image test on `name|display` looks at the display text only. -/
theorem not_image_with_display (name display : List Char)
    (h : ToLower (Ext display) ∉ imageExtensions) :
    ToLower (Ext (name ++ '|' :: display)) ∉ imageExtensions := by
  by_cases hd : ∃ c ∈ display.reverse, c = '/' ∨ c = '.'
  · have : Ext (name ++ '|' :: display) = Ext display := by
      unfold Ext
      rw [List.reverse_append, List.reverse_cons, List.append_assoc,
        extLoop_append_stop _ _ _ hd]
    rw [this]; exact h
  · have hd1 : ∀ c ∈ display.reverse, c ≠ '/' ∧ c ≠ '.' := by
      intro c hc
      constructor
      · intro e; exact hd ⟨c, hc, Or.inl e⟩
      · intro e; exact hd ⟨c, hc, Or.inr e⟩
    have e1 : Ext (name ++ '|' :: display) = extLoop name.reverse ('|' :: display) := by
      unfold Ext
      rw [List.reverse_append, List.reverse_cons, List.append_assoc,
        extLoop_append_pass _ _ _ hd1]
      simp [extLoop]
    rw [e1]
    rcases extLoop_nil_or_append name.reverse ('|' :: display) with h0 | ⟨pre, h0⟩
    · rw [h0]; decide
    · rw [h0]; exact not_image_of_bar _ (by simp)

theorem fileLinkName_plain (name : List Char) (h3 : '|' ∉ name)
    (himg : ToLower (Ext name) ∉ imageExtensions) : fileLinkName name = some name := by
  have : isImageFile name = false := by
    rw [← Bool.not_eq_true, isImageFile_iff]; exact himg
  simp [fileLinkName, this, Index, h3]

theorem fileLinkName_display (name display : List Char) (h3 : '|' ∉ name)
    (himg : ToLower (Ext display) ∉ imageExtensions) :
    fileLinkName (name ++ '|' :: display) = some name := by
  have : isImageFile (name ++ '|' :: display) = false := by
    rw [← Bool.not_eq_true, isImageFile_iff]; exact not_image_with_display _ _ himg
  have hi : List.indexOf '|' (name ++ '|' :: display) = name.length := by
    rw [List.indexOf_append_of_not_mem h3]; simp
  simp only [fileLinkName, this, Index, List.mem_append, List.mem_cons, true_or, or_true,
    if_true, hi]
  simp

theorem hintAndClose_cons_ne (c : Char) (t : List Char) (h1 : c ≠ '|') (h2 : c ≠ ']') :
    hintAndClose (c :: t) = none := by
  simp [hintAndClose, h1, closeBrackets_cons_ne _ _ h2]

theorem hintAndClose_close (rest : List Char) :
    hintAndClose (']' :: ']' :: rest) = some rest := by
  simp [hintAndClose, closeBrackets]

theorem dropWhile_digits (d rest : List Char) (hd : ∀ c ∈ d, isDigit c = true) :
    (d ++ ']' :: rest).dropWhile isDigit = ']' :: rest := by
  induction d with
  | nil =>
    have : isDigit ']' = false := by decide
    simp [List.dropWhile, this]
  | cons c t ih =>
    have hc := hd c (List.mem_cons_self _ _)
    simp [List.dropWhile, hc, ih (fun x hx => hd x (List.mem_cons_of_mem _ hx))]

theorem hintAndClose_hint (d rest : List Char) (hd : ∀ c ∈ d, isDigit c = true) :
    hintAndClose ('|' :: (d ++ ']' :: ']' :: rest)) = some rest := by
  simp [hintAndClose, dropWhile_digits d _ hd, closeBrackets]

theorem lazyToHintClose_append (g tail rest : List Char) (h1 : ']' ∉ g) (h2 : '\n' ∉ g)
    (h3 : '|' ∉ g) (ht : hintAndClose tail = some rest) :
    lazyToHintClose (g ++ tail) = some (g, rest) := by
  induction g with
  | nil =>
    cases tail with
    | nil => simp [hintAndClose] at ht
    | cons c t => simp [lazyToHintClose, ht]
  | cons c t ih =>
    simp only [List.mem_cons, not_or] at h1 h2 h3
    have hc : c ≠ ']' := fun h => h1.1 h.symm
    have hn : c ≠ '\n' := fun h => h2.1 h.symm
    have hb : c ≠ '|' := fun h => h3.1 h.symm
    simp [lazyToHintClose, hintAndClose_cons_ne _ _ hb hc, hn, ih h1.2 h2.2 h3.2]

theorem findMediaLinks_short (k : Nat) (s : List Char) (h : s.length ≤ k) :
    findMediaLinks k s = [] := by
  induction s generalizing k with
  | nil => cases k <;> simp [findMediaLinks]
  | cons c t ih =>
    cases k with
    | zero => simp at h
    | succ k => simp only [findMediaLinks]; exact ih k (by simpa using h)

/-- A single embed whose name has no `]`, `|` or line feed, closed by a tail
that the end of the media pattern matches entirely, is found as one match
with group 1 equal to the name. -/
theorem findMediaLinks_single (g tail : List Char) (h1 : ']' ∉ g) (h2 : '\n' ∉ g)
    (h3 : '|' ∉ g) (ht : hintAndClose tail = some []) :
    findMediaLinks 0 ('!' :: '[' :: '[' :: (g ++ tail)) = [g] := by
  simp only [findMediaLinks, matchMediaLink, and_self, if_true,
    lazyToHintClose_append g tail [] h1 h2 h3 ht]
  simp only [List.cons.injEq, true_and]
  apply findMediaLinks_short
  simp

/-! ## The claims on the link extractor -/

/-- C6, as stated, fails: the image test looks at the whole text between the
brackets, so `[[Foo|x.png]]` yields nothing although `Foo` has no image
extension and the display text has no bracket; and a name with a line feed in
it is not matched at all. -/
theorem nestingFiles_display_counterexample :
    ('[' ∉ "Foo".toList ∧ ']' ∉ "Foo".toList ∧ '|' ∉ "Foo".toList) ∧
    ToLower (Ext "Foo".toList) ∉ imageExtensions ∧
    ('[' ∉ "x.png".toList ∧ ']' ∉ "x.png".toList) ∧
    nestingFiles ("[[".toList ++ "Foo".toList ++ '|' :: "x.png".toList ++ "]]".toList) = [] ∧
    ('[' ∉ "a\nb".toList ∧ ']' ∉ "a\nb".toList ∧ '|' ∉ "a\nb".toList) ∧
    ToLower (Ext "a\nb".toList) ∉ imageExtensions ∧
    nestingFiles ("[[".toList ++ "a\nb".toList ++ "]]".toList) = [] := by
  decide

/-- C6 (amended): for a name without `[`, `]`, `|` or line feed that does not
end in an image extension, `nestingFiles` on `[[name]]` gives `[name]`; and for
a display text without `[`, `]` or line feed that does not end in an image
extension either, `nestingFiles` on `[[name|display]]` gives `[name]`. -/
theorem nestingFiles_link (name display : Str)
    (_h1 : '[' ∉ name) (h2 : ']' ∉ name) (h3 : '|' ∉ name) (h4 : '\n' ∉ name)
    (himg : ToLower (Ext name) ∉ imageExtensions)
    (_d1 : '[' ∉ display) (d2 : ']' ∉ display) (d4 : '\n' ∉ display)
    (dimg : ToLower (Ext display) ∉ imageExtensions) :
    nestingFiles ("[[".toList ++ name ++ "]]".toList) = [name] ∧
    nestingFiles ("[[".toList ++ name ++ '|' :: display ++ "]]".toList) = [name] := by
  constructor
  · show nestingFiles ('[' :: '[' :: (name ++ [']', ']'])) = [name]
    unfold nestingFiles
    rw [findFileLinks_single name h2 h4]
    simp [fileLinkName_plain name h3 himg]
  · have e : "[[".toList ++ name ++ '|' :: display ++ "]]".toList
        = '[' :: '[' :: ((name ++ '|' :: display) ++ [']', ']']) := by
      simp
    rw [e]
    unfold nestingFiles
    rw [findFileLinks_single (name ++ '|' :: display) (by simp [h2, d2]) (by simp [h4, d4])]
    simp [fileLinkName_display name display h3 dimg]

/-- The witness of `nestingFiles_link`: `[[Notes/Foo]]` and
`[[Notes/Foo|Display Text]]`. -/
theorem nestingFiles_link_witness :
    nestingFiles "[[Notes/Foo]]".toList = ["Notes/Foo".toList] ∧
    nestingFiles "[[Notes/Foo|Display Text]]".toList = ["Notes/Foo".toList] :=
  nestingFiles_link "Notes/Foo".toList "Display Text".toList (by decide) (by decide) (by decide)
    (by decide) (by decide) (by decide) (by decide) (by decide) (by decide)

/-- C7: for a name without `[`, `]` or `|` whose final extension, lower-cased,
is one of the image extensions, `nestingFiles` on `[[name]]` gives the empty
list. -/
theorem nestingFiles_image (name : Str)
    (h1 : '[' ∉ name) (h2 : ']' ∉ name) (_h3 : '|' ∉ name)
    (himg : ToLower (Ext name) ∈ imageExtensions) :
    nestingFiles ("[[".toList ++ name ++ "]]".toList) = [] := by
  show nestingFiles ('[' :: '[' :: (name ++ [']', ']'])) = []
  by_cases h4 : '\n' ∈ name
  · have hno : findFileLinks 0 ('[' :: '[' :: (name ++ [']', ']'])) = [] := by
      cases name with
      | nil => simp at h4
      | cons c t =>
        simp only [List.mem_cons, not_or] at h1
        have hc : c ≠ '[' := fun e => h1.1 e.symm
        have hrest : '[' ∉ c :: t ++ [']', ']'] := by
          simp only [List.mem_append, List.mem_cons, not_or]
          exact ⟨⟨h1.1, h1.2⟩, by decide, by decide, by simp⟩
        have hm : matchFileLink ('[' :: (c :: t ++ [']', ']'])) = none := by
          simp [matchFileLink, hc]
        have hm0 : matchFileLink ('[' :: '[' :: (c :: t ++ [']', ']'])) = none := by
          simp only [matchFileLink, and_self, if_true]
          exact lazyToClose_newline (c :: t) [']', ']'] h2 h4
        rw [findFileLinks_none _ _ hm0, findFileLinks_none _ _ hm]
        exact findFileLinks_no_open 0 _ hrest
    simp [nestingFiles, hno]
  · unfold nestingFiles
    rw [findFileLinks_single name h2 h4]
    have : isImageFile name = true := (isImageFile_iff name).2 himg
    simp [fileLinkName, this]

/-- The witness of `nestingFiles_image`: `[[DIAGRAM.PNG]]`. -/
theorem nestingFiles_image_witness : nestingFiles "[[DIAGRAM.PNG]]".toList = [] :=
  nestingFiles_image "DIAGRAM.PNG".toList (by decide) (by decide) (by decide) (by decide)

/-- C8, as stated, fails: a name with a line feed in it has none of `[`, `]`,
`|`, yet the embed is not matched and `nestingMedia` gives nothing. -/
theorem nestingMedia_newline_counterexample :
    ('[' ∉ "a\nb".toList ∧ ']' ∉ "a\nb".toList ∧ '|' ∉ "a\nb".toList) ∧
    nestingMedia ("![[".toList ++ "a\nb".toList ++ "]]".toList) = [] ∧
    nestingMedia ("![[".toList ++ "a\nb".toList ++ '|' :: "40".toList ++ "]]".toList) = [] := by
  decide

/-- C8 (amended): for a name without `[`, `]`, `|` or line feed and a string
`d` of decimal digits, empty or not, `nestingMedia` on `![[name]]` and on
`![[name|d]]` gives the one-element list holding the name without its final
extension. -/
theorem nestingMedia_embed (name d : Str)
    (_h1 : '[' ∉ name) (h2 : ']' ∉ name) (h3 : '|' ∉ name) (h4 : '\n' ∉ name)
    (hd : ∀ c ∈ d, isDigit c = true) :
    nestingMedia ("![[".toList ++ name ++ "]]".toList) = [TrimSuffix name (Ext name)] ∧
    nestingMedia ("![[".toList ++ name ++ '|' :: d ++ "]]".toList)
      = [TrimSuffix name (Ext name)] := by
  constructor
  · show nestingMedia ('!' :: '[' :: '[' :: (name ++ [']', ']'])) = _
    unfold nestingMedia
    rw [findMediaLinks_single name _ h2 h4 h3 (hintAndClose_close [])]
    rfl
  · have e : "![[".toList ++ name ++ '|' :: d ++ "]]".toList
        = '!' :: '[' :: '[' :: (name ++ '|' :: (d ++ ']' :: ']' :: [])) := by
      simp
    rw [e]
    unfold nestingMedia
    rw [findMediaLinks_single name _ h2 h4 h3 (hintAndClose_hint d [] hd)]
    rfl

/-- The witness of `nestingMedia_embed`: `![[clip.mp4]]` and `![[clip.mp4|400]]`
both give `clip`. -/
theorem nestingMedia_embed_witness :
    nestingMedia "![[clip.mp4]]".toList = ["clip".toList] ∧
    nestingMedia "![[clip.mp4|400]]".toList = ["clip".toList] :=
  nestingMedia_embed "clip.mp4".toList "400".toList (by decide) (by decide) (by decide)
    (by decide) (by decide)

/-! ## The claims on the filename resolver -/

theorem getFilePathByNameWalk_eq (env : Env) (filename : Str) (calls : List WalkCall)
    (filePath : Str) :
    (getFilePathByNameWalk env filename calls filePath).1
      = (matchingPaths env filename calls).getLastD filePath := by
  induction calls generalizing filePath with
  | nil => rfl
  | cons c rest ih =>
    cases c with
    | failure path err => rfl
    | visit path info =>
      have hw : walkedCalls (WalkCall.visit path info :: rest)
          = WalkCall.visit path info :: walkedCalls rest := by
        simp [walkedCalls, WalkCall.isFailure]
      by_cases hd : info.IsDir = true
      · have hm : isMatchingFile env filename (WalkCall.visit path info) = false := by
          simp [isMatchingFile, hd]
        have e : matchingPaths env filename (WalkCall.visit path info :: rest)
            = matchingPaths env filename rest := by
          unfold matchingPaths
          rw [hw, List.filter_cons_of_neg (by simp [hm])]
        rw [e, ← ih]
        simp [getFilePathByNameWalk, hd]
      · by_cases hn : env.nfc (TrimSuffix info.Name (Ext info.Name)) = env.nfc filename
        · have hm : isMatchingFile env filename (WalkCall.visit path info) = true := by
            simp [isMatchingFile, hd, hn]
          have e : matchingPaths env filename (WalkCall.visit path info :: rest)
              = path :: matchingPaths env filename rest := by
            unfold matchingPaths
            rw [hw, List.filter_cons_of_pos hm]
            rfl
          rw [e, List.getLastD_cons, ← ih]
          simp [getFilePathByNameWalk, hd, hn]
        · have hm : isMatchingFile env filename (WalkCall.visit path info) = false := by
            simp [isMatchingFile, hd, hn]
          have e : matchingPaths env filename (WalkCall.visit path info :: rest)
              = matchingPaths env filename rest := by
            unfold matchingPaths
            rw [hw, List.filter_cons_of_neg (by simp [hm])]
          rw [e, ← ih]
          simp [getFilePathByNameWalk, hd, hn]

theorem getFilePathByName_eq (env : Env) (sourceDir filename : Str) :
    (getFilePathByName env sourceDir filename).1
      = (matchingPaths env filename (env.walk sourceDir)).getLastD [] :=
  getFilePathByNameWalk_eq env filename (env.walk sourceDir) []

/-- C10, as stated, fails: directory `A` of the sample vault reports two files
matching `Note`, first `A/Note.md` and then `A/sub/Note.txt`, and
`getFilePathByName` returns the second. -/
theorem getFilePathByName_first_counterexample :
    matchingPaths sampleEnv "Note".toList (sampleEnv.walk "A".toList)
      = ["A/Note.md".toList, "A/sub/Note.txt".toList] ∧
    (getFilePathByName sampleEnv "A".toList "Note".toList).1 = "A/sub/Note.txt".toList ∧
    (getFilePathByName sampleEnv "A".toList "Note".toList).1 ≠ "A/Note.md".toList := by
  decide

/-- C10 (amended): `getFilePathByName` returns the path of the last matching
regular file that the walk of the directory reports (before the walk stops on
an error), and the empty path when it reports none. -/
theorem getFilePathByName_last (env : Env) (sourceDir filename : Str) :
    (getFilePathByName env sourceDir filename).1
      = (matchingPaths env filename (env.walk sourceDir)).getLastD [] :=
  getFilePathByNameWalk_eq env filename (env.walk sourceDir) []

theorem getLastD_mem {α : Type} (l : List α) (d : α) (h : l ≠ []) : l.getLastD d ∈ l := by
  induction l generalizing d with
  | nil => exact absurd rfl h
  | cons a t ih =>
    rw [List.getLastD_cons]
    cases t with
    | nil => simp
    | cons b u => exact List.mem_cons_of_mem _ (ih a (by simp))

theorem findAndCopy_skip (env : Env) (file : Str) (pre rest : List Str) (tree : Tree)
    (hpre : ∀ d ∈ pre, matchingPaths env file (env.walk d) = []) :
    (findAndCopy env file (pre ++ rest) tree).filePath = (findAndCopy env file rest tree).filePath ∧
    (findAndCopy env file (pre ++ rest) tree).searched
      = pre ++ (findAndCopy env file rest tree).searched ∧
    (findAndCopy env file (pre ++ rest) tree).copyErr = (findAndCopy env file rest tree).copyErr ∧
    (findAndCopy env file (pre ++ rest) tree).tree = (findAndCopy env file rest tree).tree := by
  induction pre with
  | nil => simp
  | cons d ds ih =>
    have hd : (getFilePathByName env d file).1 = [] := by
      rw [getFilePathByName_eq, hpre d (List.mem_cons_self _ _)]; rfl
    have ih1 := ih (fun x hx => hpre x (List.mem_cons_of_mem _ hx))
    simp only [List.cons_append, findAndCopy, hd, ne_eq, not_true_eq_false, if_false]
    exact ⟨ih1.1, congrArg (List.cons d) ih1.2.1, ih1.2.2.1, ih1.2.2.2⟩

/-- C9, as stated, fails: in the vault `lockedEnv` both `A` and `B` contain a
file matching `Note`, but the walk of `A` meets an unreadable directory before
it reaches `A/Note.md` and stops there; the loop over `[A, B]` searches `B` and
ends with `B/Note.md`. -/
theorem findAndCopy_walk_error_counterexample :
    fileCall "A/Note.md" "Note.md" ∈ lockedEnv.walk "A".toList ∧
    isMatchingFile lockedEnv "Note".toList (fileCall "A/Note.md" "Note.md") = true ∧
    fileCall "B/Note.md" "Note.md" ∈ lockedEnv.walk "B".toList ∧
    isMatchingFile lockedEnv "Note".toList (fileCall "B/Note.md" "Note.md") = true ∧
    (findAndCopy lockedEnv "Note".toList ["A".toList, "B".toList] []).filePath
      = "B/Note.md".toList ∧
    (findAndCopy lockedEnv "Note".toList ["A".toList, "B".toList] []).searched
      = ["A".toList, "B".toList] ∧
    (findAndCopy lockedEnv "Note".toList ["A".toList, "B".toList] []).tree
      = [(lockedEnv.join docsDir "Note.md".toList, "note in B".toList)] := by
  decide

/-- C9 (amended): when no directory before `A` in `cfg.FilesPaths` has a walk
that reports a matching file before its first error, and the walk of `A`
reports one before its first error (under a non-empty path), the loop over
`cfg.FilesPaths` of `parseFileBFS` ends with the path of such a matching file of
`A`, has called `getFilePathByName` on the directories up to `A` only, and has
called `copyFile` on that path. -/
theorem findAndCopy_first_dir (env : Env) (file : Str) (pre post : List Str) (A : Str)
    (tree : Tree)
    (hpre : ∀ d ∈ pre, matchingPaths env file (env.walk d) = [])
    (hA : matchingPaths env file (env.walk A) ≠ [])
    (hne : [] ∉ matchingPaths env file (env.walk A)) :
    (findAndCopy env file (pre ++ A :: post) tree).filePath
      ∈ matchingPaths env file (env.walk A) ∧
    (findAndCopy env file (pre ++ A :: post) tree).searched = pre ++ [A] ∧
    ((findAndCopy env file (pre ++ A :: post) tree).tree,
     (findAndCopy env file (pre ++ A :: post) tree).copyErr)
      = copyFile env (findAndCopy env file (pre ++ A :: post) tree).filePath
          (env.join docsDir (file ++ ".md".toList)) tree := by
  have hmem := getLastD_mem _ ([] : Str) hA
  have hp : (getFilePathByName env A file).1 ≠ [] := by
    rw [getFilePathByName_eq]
    intro e
    rw [e] at hmem
    exact hne hmem
  obtain ⟨h1, h2, h3, h4⟩ := findAndCopy_skip env file pre (A :: post) tree hpre
  rw [h1, h2, h3, h4]
  simp only [findAndCopy, hp, ne_eq, not_false_eq_true, if_true]
  refine ⟨?_, trivial, trivial⟩
  rw [getFilePathByName_eq]
  exact hmem

/-- The witness of `findAndCopy_first_dir`: `Note` has files in both `A` and
`B`; with `[A, B]` the file comes from `A` and `B` is not searched. -/
theorem findAndCopy_first_dir_witness :
    (findAndCopy sampleEnv "Note".toList ["A".toList, "B".toList] []).filePath
      ∈ matchingPaths sampleEnv "Note".toList (sampleEnv.walk "A".toList) ∧
    (findAndCopy sampleEnv "Note".toList ["A".toList, "B".toList] []).searched = ["A".toList] ∧
    ((findAndCopy sampleEnv "Note".toList ["A".toList, "B".toList] []).tree,
     (findAndCopy sampleEnv "Note".toList ["A".toList, "B".toList] []).copyErr)
      = copyFile sampleEnv (findAndCopy sampleEnv "Note".toList ["A".toList, "B".toList] []).filePath
          (sampleEnv.join docsDir ("Note".toList ++ ".md".toList)) [] :=
  findAndCopy_first_dir sampleEnv "Note".toList [] ["B".toList] "A".toList []
    (by decide) (by decide) (by decide)

/-! ## One iteration of the queue loop -/

theorem copyFile_err_tree (env : Env) (src dst : Str) (tree : Tree) :
    (copyFile env src dst tree).2 = (copyFile env src dst []).2 := by
  unfold copyFile
  cases env.file src with
  | none => rfl
  | some f => cases env.create dst <;> rfl

theorem findAndCopy_tree (env : Env) (file : Str) (dirs : List Str) (tree : Tree) :
    (findAndCopy env file dirs tree).filePath = (findAndCopy env file dirs []).filePath ∧
    (findAndCopy env file dirs tree).copyErr = (findAndCopy env file dirs []).copyErr := by
  induction dirs with
  | nil => exact ⟨rfl, rfl⟩
  | cons d ds ih =>
    by_cases h : (getFilePathByName env d file).1 = []
    · simp only [findAndCopy, h, ne_eq, not_true_eq_false, if_false]
      exact ih
    · simp only [findAndCopy, h, ne_eq, not_false_eq_true, if_true, true_and]
      exact copyFile_err_tree _ _ _ _

theorem findAndCopy_copyErr (env : Env) (file : Str) (dirs : List Str) (tree : Tree)
    (h : (findAndCopy env file dirs tree).filePath ≠ []) :
    (findAndCopy env file dirs tree).copyErr
      = (copyFile env (findAndCopy env file dirs tree).filePath
          (env.join docsDir (file ++ ".md".toList)) []).2 := by
  induction dirs with
  | nil => exact absurd rfl h
  | cons d ds ih =>
    by_cases h1 : (getFilePathByName env d file).1 = []
    · simp only [findAndCopy, h1, ne_eq, not_true_eq_false, if_false] at h ⊢
      exact ih h
    · simp only [findAndCopy, h1, ne_eq, not_false_eq_true, if_true]
      exact copyFile_err_tree _ _ _ _

/-- An item that fails one of the three guards is only taken off the queue. -/
theorem step_skip (env : Env) (cfg : Config) (s : State) (cur : Item) (q : List Item)
    (hq : s.queue = cur :: q)
    (h : cfg.LevelNesting < cur.level ∨ cur.file ∈ cfg.BlackList ∨ cur.file ∈ s.parsedFiles) :
    ∃ out, out.processed = false ∧
      step env cfg s = { s with queue := q, trace := s.trace ++ [(cur, out)] } := by
  unfold step
  rw [hq]
  by_cases h1 : cfg.LevelNesting < cur.level
  · exact ⟨Outcome.tooDeep, rfl, by simp [h1]⟩
  · by_cases h2 : cur.file ∈ cfg.BlackList
    · exact ⟨Outcome.blackListed, rfl, by simp [h1, h2]⟩
    · have h3 : cur.file ∈ s.parsedFiles := by
        rcases h with h | h | h
        · exact absurd h h1
        · exact absurd h h2
        · exact h
      exact ⟨Outcome.alreadyParsed, rfl, by simp [h1, h2, h3]⟩

/-- An item that passes the three guards is marked as parsed, and its links
are put at the back of the queue one level deeper. -/
theorem step_process (env : Env) (cfg : Config) (s : State) (cur : Item) (q : List Item)
    (hq : s.queue = cur :: q)
    (h1 : ¬ cfg.LevelNesting < cur.level) (h2 : cur.file ∉ cfg.BlackList)
    (h3 : cur.file ∉ s.parsedFiles) :
    ∃ out, out.processed = true ∧ out.children = linksOf env cfg cur.file ∧
      out.copied = copySucceeds env cfg cur.file ∧
      (step env cfg s).queue = q ++ childItems env cfg cur ∧
      (step env cfg s).parsedFiles = cur.file :: s.parsedFiles ∧
      (step env cfg s).trace = s.trace ++ [(cur, out)] := by
  have hp := (findAndCopy_tree env cur.file cfg.FilesPaths s.tree).1
  have hr : resolvePath env cfg cur.file = (findAndCopy env cur.file cfg.FilesPaths s.tree).filePath :=
    hp.symm
  unfold step
  rw [hq]
  simp only [gt_iff_lt, h1, h2, h3, if_false]
  by_cases hf : (findAndCopy env cur.file cfg.FilesPaths s.tree).filePath = []
  · refine ⟨Outcome.notFound (findAndCopy env cur.file cfg.FilesPaths s.tree).searched, rfl, ?_, ?_, ?_⟩
    · simp [Outcome.children, linksOf, hr, hf]
    · simp [Outcome.copied, copySucceeds, hr, hf]
    · simp [hf, childItems, linksOf, hr]
  · have hc := findAndCopy_copyErr env cur.file cfg.FilesPaths s.tree hf
    cases hfile : env.file (findAndCopy env cur.file cfg.FilesPaths s.tree).filePath with
    | none =>
      refine ⟨Outcome.openFailed (findAndCopy env cur.file cfg.FilesPaths s.tree).searched
        (findAndCopy env cur.file cfg.FilesPaths s.tree).filePath
        (findAndCopy env cur.file cfg.FilesPaths s.tree).copyErr, rfl, ?_, ?_, ?_⟩
      · simp [Outcome.children, linksOf, hr, hf, hfile]
      · simp [Outcome.copied, copySucceeds, hr, hf, hc]
      · simp [hf, childItems, linksOf, hr, hfile]
    | some file =>
      refine ⟨Outcome.expanded (findAndCopy env cur.file cfg.FilesPaths s.tree).searched
        (findAndCopy env cur.file cfg.FilesPaths s.tree).filePath
        (findAndCopy env cur.file cfg.FilesPaths s.tree).copyErr
        (file.lines.flatMap nestingFiles) (file.lines.flatMap nestingMedia)
        (copyMatchingFiles env cfg.MediaPath mediaDir (file.lines.flatMap nestingMedia)
          (findAndCopy env cur.file cfg.FilesPaths s.tree).tree).2, rfl, ?_, ?_, ?_⟩
      · simp [Outcome.children, linksOf, hr, hf, hfile]
      · simp [Outcome.copied, copySucceeds, hr, hf, hc]
      · simp [hf, childItems, linksOf, hr, hfile]

/-! ## The invariant holds along every run -/

theorem mem_childItems (env : Env) (cfg : Config) (cur a : Item)
    (h : a ∈ childItems env cfg cur) : a.level = cur.level + 1 ∧ a.file ∈ linksOf env cfg cur.file := by
  unfold childItems at h
  obtain ⟨m, hm, rfl⟩ := List.mem_map.1 h
  exact ⟨rfl, hm⟩

theorem Inv.initial (env : Env) (cfg : Config) (start : Str) (tree : Tree) :
    Inv env cfg start (initState start tree) where
  sorted := by simp [initState]
  span := by
    intro a ha b hb
    simp only [initState, List.mem_singleton] at ha hb
    subst ha; subst hb; simp
  trace_le := by intro e he; simp [initState] at he
  parsed_iff := by intro f; simp [initState]
  once := by intro f; simp [initState, processedCount]
  faithful := by intro e he; simp [initState] at he
  started := by left; simp [initState]
  enqueued := by intro e he; simp [initState] at he
  handled := by intro e he; simp [initState] at he

theorem Inv.skip {env : Env} {cfg : Config} {start : Str} {s t : State} {cur : Item}
    {q : List Item} {out : Outcome} (h : Inv env cfg start s) (hq : s.queue = cur :: q)
    (hwhy : cfg.LevelNesting < cur.level ∨ cur.file ∈ cfg.BlackList ∨ cur.file ∈ s.parsedFiles)
    (hout : out.processed = false) (hq2 : t.queue = q) (hp2 : t.parsedFiles = s.parsedFiles)
    (ht2 : t.trace = s.trace ++ [(cur, out)]) : Inv env cfg start t := by
  have hsorted := h.sorted
  rw [hq] at hsorted
  have hcur : ∀ a ∈ q, cur.level ≤ a.level := (List.pairwise_cons.1 hsorted).1
  have hmem : ∀ e, e ∈ t.trace ↔ e ∈ s.trace ∨ e = (cur, out) := by
    intro e; rw [ht2]; simp
  have hqmem : ∀ a, a ∈ s.queue ↔ a = cur ∨ a ∈ q := by
    intro a; rw [hq]; simp
  refine
    { sorted := ?_, span := ?_, trace_le := ?_, parsed_iff := ?_, once := ?_, faithful := ?_,
      started := ?_, enqueued := ?_, handled := ?_ }
  · rw [hq2]; exact (List.pairwise_cons.1 hsorted).2
  · intro a ha b hb
    rw [hq2] at ha hb
    exact h.span a ((hqmem a).2 (Or.inr ha)) b ((hqmem b).2 (Or.inr hb))
  · intro e he a ha
    rw [hq2] at ha
    rcases (hmem e).1 he with he | he
    · exact h.trace_le e he a ((hqmem a).2 (Or.inr ha))
    · subst he; exact hcur a ha
  · intro f
    rw [hp2, h.parsed_iff f]
    constructor
    · rintro ⟨e, he, h1, h2⟩
      exact ⟨e, (hmem e).2 (Or.inl he), h1, h2⟩
    · rintro ⟨e, he, h1, h2⟩
      rcases (hmem e).1 he with he | he
      · exact ⟨e, he, h1, h2⟩
      · subst he; rw [hout] at h2; cases h2
  · intro f
    have := h.once f
    unfold processedCount at this ⊢
    rw [ht2, List.countP_append]
    simpa [hout] using this
  · intro e he hpr
    rcases (hmem e).1 he with he | he
    · exact h.faithful e he hpr
    · subst he; rw [hout] at hpr; cases hpr
  · rcases h.started with hs | ⟨e, he, h1⟩
    · rcases (hqmem _).1 hs with hs | hs
      · right; exact ⟨(cur, out), (hmem _).2 (Or.inr rfl), hs.symm⟩
      · left; rw [hq2]; exact hs
    · right; exact ⟨e, (hmem e).2 (Or.inl he), h1⟩
  · intro e he hpr c hc
    rcases (hmem e).1 he with he | he
    · rcases h.enqueued e he hpr c hc with hs | ⟨e2, he2, h1⟩
      · rcases (hqmem _).1 hs with hs | hs
        · right; exact ⟨(cur, out), (hmem _).2 (Or.inr rfl), hs.symm⟩
        · left; rw [hq2]; exact hs
      · right; exact ⟨e2, (hmem e2).2 (Or.inl he2), h1⟩
    · subst he; rw [hout] at hpr; cases hpr
  · intro e he hl hb
    rcases (hmem e).1 he with he | he
    · obtain ⟨e2, he2, h1, h2, h3⟩ := h.handled e he hl hb
      exact ⟨e2, (hmem e2).2 (Or.inl he2), h1, h2, h3⟩
    · subst he
      have hpar : cur.file ∈ s.parsedFiles := by
        rcases hwhy with hw | hw | hw
        · exact absurd hl (not_le.2 hw)
        · exact absurd hw hb
        · exact hw
      obtain ⟨e2, he2, h1, h2⟩ := (h.parsed_iff cur.file).1 hpar
      exact ⟨e2, (hmem e2).2 (Or.inl he2), h1, h2,
        h.trace_le e2 he2 cur ((hqmem cur).2 (Or.inl rfl))⟩

theorem Inv.process {env : Env} {cfg : Config} {start : Str} {s t : State} {cur : Item}
    {q : List Item} {out : Outcome} (h : Inv env cfg start s) (hq : s.queue = cur :: q)
    (h1 : ¬ cfg.LevelNesting < cur.level) (h2 : cur.file ∉ cfg.BlackList)
    (h3 : cur.file ∉ s.parsedFiles)
    (hout : out.processed = true) (hch : out.children = linksOf env cfg cur.file)
    (hcp : out.copied = copySucceeds env cfg cur.file)
    (hq2 : t.queue = q ++ childItems env cfg cur)
    (hp2 : t.parsedFiles = cur.file :: s.parsedFiles)
    (ht2 : t.trace = s.trace ++ [(cur, out)]) : Inv env cfg start t := by
  have hsorted := h.sorted
  rw [hq] at hsorted
  have hcur : ∀ a ∈ q, cur.level ≤ a.level := (List.pairwise_cons.1 hsorted).1
  have hmem : ∀ e, e ∈ t.trace ↔ e ∈ s.trace ∨ e = (cur, out) := by
    intro e; rw [ht2]; simp
  have hqmem : ∀ a, a ∈ s.queue ↔ a = cur ∨ a ∈ q := by
    intro a; rw [hq]; simp
  have hq2mem : ∀ a, a ∈ t.queue ↔ a ∈ q ∨ a ∈ childItems env cfg cur := by
    intro a; rw [hq2]; simp
  have hkid : ∀ a ∈ childItems env cfg cur, a.level = cur.level + 1 :=
    fun a ha => (mem_childItems env cfg cur a ha).1
  have hup : ∀ a ∈ q, a.level ≤ cur.level + 1 :=
    fun a ha => h.span cur ((hqmem cur).2 (Or.inl rfl)) a ((hqmem a).2 (Or.inr ha))
  have hnone : ∀ e ∈ s.trace, e.1.file = cur.file → e.2.processed = true → False := by
    intro e he hf hpr
    exact h3 ((h.parsed_iff cur.file).2 ⟨e, he, hf, hpr⟩)
  have hkidmem : ∀ c ∈ linksOf env cfg cur.file,
      ({ file := c, level := cur.level + 1 } : Item) ∈ childItems env cfg cur := by
    intro c hc
    unfold childItems
    exact List.mem_map.2 ⟨c, hc, rfl⟩
  refine
    { sorted := ?_, span := ?_, trace_le := ?_, parsed_iff := ?_, once := ?_, faithful := ?_,
      started := ?_, enqueued := ?_, handled := ?_ }
  · rw [hq2, List.pairwise_append]
    refine ⟨(List.pairwise_cons.1 hsorted).2, ?_, ?_⟩
    · rw [List.pairwise_iff_forall_sublist]
      intro a b hab
      have ha := hkid a (hab.subset (List.mem_cons_self _ _))
      have hb := hkid b (hab.subset (List.mem_cons_of_mem _ (List.mem_singleton_self _)))
      omega
    · intro a ha b hb
      have := hup a ha
      have := hkid b hb
      omega
  · intro a ha b hb
    rcases (hq2mem a).1 ha with ha | ha <;> rcases (hq2mem b).1 hb with hb | hb
    · exact h.span a ((hqmem a).2 (Or.inr ha)) b ((hqmem b).2 (Or.inr hb))
    · have := hcur a ha
      have := hkid b hb
      omega
    · have := hup b hb
      have := hkid a ha
      omega
    · have := hkid a ha
      have := hkid b hb
      omega
  · intro e he a ha
    have hecur : e.1.level ≤ cur.level := by
      rcases (hmem e).1 he with he | he
      · exact h.trace_le e he cur ((hqmem cur).2 (Or.inl rfl))
      · subst he; exact le_refl _
    rcases (hq2mem a).1 ha with ha | ha
    · have := hcur a ha
      omega
    · have := hkid a ha
      omega
  · intro f
    rw [hp2, List.mem_cons, h.parsed_iff f]
    constructor
    · rintro (hf | ⟨e, he, h4, h5⟩)
      · exact ⟨(cur, out), (hmem _).2 (Or.inr rfl), hf.symm, hout⟩
      · exact ⟨e, (hmem e).2 (Or.inl he), h4, h5⟩
    · rintro ⟨e, he, h4, h5⟩
      rcases (hmem e).1 he with he | he
      · exact Or.inr ⟨e, he, h4, h5⟩
      · subst he; exact Or.inl h4.symm
  · intro f
    have hold := h.once f
    unfold processedCount at hold ⊢
    rw [ht2, List.countP_append]
    by_cases hf : cur.file = f
    · have hz : List.countP (fun e => decide (e.1.file = f) && e.2.processed) s.trace = 0 := by
        rw [List.countP_eq_zero]
        intro e he hc
        simp only [Bool.and_eq_true, decide_eq_true_eq] at hc
        exact hnone e he (hc.1.trans hf.symm) hc.2
      rw [hz]
      simp [List.countP_cons]
      split <;> omega
    · have hz : List.countP (fun e => decide (e.1.file = f) && e.2.processed) [(cur, out)] = 0 := by
        simp [hf]
      rw [hz]
      simpa using hold
  · intro e he hpr
    rcases (hmem e).1 he with he | he
    · exact h.faithful e he hpr
    · subst he
      exact ⟨hch, hcp, not_lt.1 h1, h2⟩
  · rcases h.started with hs | ⟨e, he, h4⟩
    · rcases (hqmem _).1 hs with hs | hs
      · right; exact ⟨(cur, out), (hmem _).2 (Or.inr rfl), hs.symm⟩
      · left; exact (hq2mem _).2 (Or.inl hs)
    · right; exact ⟨e, (hmem e).2 (Or.inl he), h4⟩
  · intro e he hpr c hc
    rcases (hmem e).1 he with he | he
    · rcases h.enqueued e he hpr c hc with hs | ⟨e2, he2, h4⟩
      · rcases (hqmem _).1 hs with hs | hs
        · right; exact ⟨(cur, out), (hmem _).2 (Or.inr rfl), hs.symm⟩
        · left; exact (hq2mem _).2 (Or.inl hs)
      · right; exact ⟨e2, (hmem e2).2 (Or.inl he2), h4⟩
    · subst he
      left
      exact (hq2mem _).2 (Or.inr (hkidmem c hc))
  · intro e he hl hb
    rcases (hmem e).1 he with he | he
    · obtain ⟨e2, he2, h4, h5, h6⟩ := h.handled e he hl hb
      exact ⟨e2, (hmem e2).2 (Or.inl he2), h4, h5, h6⟩
    · subst he
      exact ⟨(cur, out), (hmem _).2 (Or.inr rfl), rfl, hout, le_refl _⟩

/-- One iteration keeps the invariant. -/
theorem Inv.after_step {env : Env} {cfg : Config} {start : Str} {s : State}
    (h : Inv env cfg start s) : Inv env cfg start (step env cfg s) := by
  cases hq : s.queue with
  | nil =>
    have : step env cfg s = s := by unfold step; rw [hq]
    rw [this]; exact h
  | cons cur q =>
    by_cases hwhy : cfg.LevelNesting < cur.level ∨ cur.file ∈ cfg.BlackList ∨
        cur.file ∈ s.parsedFiles
    · obtain ⟨out, hout, hs⟩ := step_skip env cfg s cur q hq hwhy
      exact Inv.skip h hq hwhy hout (by rw [hs]) (by rw [hs]) (by rw [hs])
    · simp only [not_or] at hwhy
      obtain ⟨out, hout, hch, hcp, hq2, hp2, ht2⟩ :=
        step_process env cfg s cur q hq hwhy.1 hwhy.2.1 hwhy.2.2
      exact Inv.process h hq hwhy.1 hwhy.2.1 hwhy.2.2 hout hch hcp hq2 hp2 ht2

/-- The invariant holds after any number of iterations. -/
theorem Inv.after_run {env : Env} {cfg : Config} {start : Str} (n : Nat) {s : State}
    (h : Inv env cfg start s) : Inv env cfg start (run env cfg n s) := by
  induction n generalizing s with
  | zero => exact h
  | succ n ih => exact ih (Inv.after_step h)

/-! ## The queue loop ends -/

theorem run_add (env : Env) (cfg : Config) (m n : Nat) (s : State) :
    run env cfg (m + n) s = run env cfg n (run env cfg m s) := by
  induction m generalizing s with
  | zero => simp [run]
  | succ m ih =>
    have : m + 1 + n = (m + n) + 1 := by omega
    rw [this]
    simp only [run]
    exact ih _

theorem run_succ (env : Env) (cfg : Config) (n : Nat) (s : State) :
    run env cfg (n + 1) s = step env cfg (run env cfg n s) := by
  rw [run_add]; rfl

theorem step_of_empty (env : Env) (cfg : Config) (s : State) (h : s.queue = []) :
    step env cfg s = s := by
  unfold step; rw [h]

theorem run_of_empty (env : Env) (cfg : Config) (n : Nat) (s : State) (h : s.queue = []) :
    run env cfg n s = s := by
  induction n with
  | zero => rfl
  | succ n ih => simp only [run, step_of_empty env cfg s h]; exact ih

/-- One iteration takes the front item off and puts items one level deeper at
the back; none when the front item is deeper than `LevelNesting`. -/
theorem step_queue (env : Env) (cfg : Config) (s : State) (cur : Item) (q : List Item)
    (hq : s.queue = cur :: q) :
    ∃ kids, (step env cfg s).queue = q ++ kids ∧
      (∀ c ∈ kids, c.level = cur.level + 1) ∧ (cfg.LevelNesting < cur.level → kids = []) := by
  by_cases hwhy : cfg.LevelNesting < cur.level ∨ cur.file ∈ cfg.BlackList ∨
      cur.file ∈ s.parsedFiles
  · obtain ⟨out, _, hs⟩ := step_skip env cfg s cur q hq hwhy
    exact ⟨[], by rw [hs]; simp, by simp, fun _ => rfl⟩
  · simp only [not_or] at hwhy
    obtain ⟨out, _, _, _, hq2, _, _⟩ :=
      step_process env cfg s cur q hq hwhy.1 hwhy.2.1 hwhy.2.2
    exact ⟨childItems env cfg cur, hq2, fun c hc => (mem_childItems env cfg cur c hc).1,
      fun h => absurd h hwhy.1⟩

theorem run_drain (env : Env) (cfg : Config) (q : List Item) (s : State) (hq : s.queue = q)
    (hdeep : ∀ a ∈ q, cfg.LevelNesting < a.level) : (run env cfg q.length s).queue = [] := by
  induction q generalizing s with
  | nil => exact hq
  | cons cur q ih =>
    obtain ⟨kids, h1, _, h3⟩ := step_queue env cfg s cur q hq
    rw [h3 (hdeep cur (List.mem_cons_self _ _)), List.append_nil] at h1
    exact ih (step env cfg s) h1 (fun a ha => hdeep a (List.mem_cons_of_mem _ ha))

theorem run_pass (env : Env) (cfg : Config) (m : Int) (q1 q2 : List Item) (s : State)
    (hq : s.queue = q1 ++ q2) (h1 : ∀ a ∈ q1, m < a.level) (h2 : ∀ a ∈ q2, m + 1 < a.level) :
    ∀ a ∈ (run env cfg q1.length s).queue, m + 1 < a.level := by
  induction q1 generalizing s q2 with
  | nil =>
    intro a ha
    have ha2 : a ∈ s.queue := ha
    rw [hq] at ha2
    exact h2 a ha2
  | cons cur q ih =>
    obtain ⟨kids, hk1, hk2, _⟩ := step_queue env cfg s cur (q ++ q2) hq
    rw [List.append_assoc] at hk1
    refine ih (q2 ++ kids) (step env cfg s) hk1 (fun a ha => h1 a (List.mem_cons_of_mem _ ha)) ?_
    intro a ha
    rcases List.mem_append.1 ha with ha | ha
    · exact h2 a ha
    · have := hk2 a ha
      have := h1 cur (List.mem_cons_self _ _)
      omega

theorem run_ends_from (env : Env) (cfg : Config) (k : Nat) (s : State)
    (h : ∀ a ∈ s.queue, cfg.LevelNesting - k < a.level) :
    ∃ n, (run env cfg n s).queue = [] := by
  induction k generalizing s with
  | zero =>
    exact ⟨s.queue.length, run_drain env cfg s.queue s rfl (fun a ha => by simpa using h a ha)⟩
  | succ k ih =>
    have hp := run_pass env cfg (cfg.LevelNesting - (k + 1 : Nat)) s.queue [] s (by simp) h
      (by simp)
    obtain ⟨n, hn⟩ := ih (run env cfg s.queue.length s) (by
      intro a ha
      have := hp a ha
      push_cast at this
      omega)
    exact ⟨s.queue.length + n, by rw [run_add]; exact hn⟩

/-- The queue is empty after finitely many iterations, from the initial state of
any start document. -/
theorem run_ends (env : Env) (cfg : Config) (filename : Str) (tree : Tree) :
    ∃ n, (run env cfg n (initState filename tree)).queue = [] := by
  apply run_ends_from env cfg (cfg.LevelNesting.toNat + 1)
  intro a ha
  simp only [initState, List.mem_singleton] at ha
  subst ha
  have := Int.self_le_toNat cfg.LevelNesting
  push_cast
  show cfg.LevelNesting - (↑cfg.LevelNesting.toNat + 1) < 1
  omega

theorem loop_eq (env : Env) (cfg : Config) (fuel : Nat) (s : State) :
    loop env cfg fuel s
      = if (run env cfg fuel s).queue = [] then some (run env cfg fuel s) else none := by
  induction fuel generalizing s with
  | zero => rfl
  | succ n ih =>
    by_cases h : s.queue = []
    · simp [loop, h, run_of_empty env cfg (n + 1) s h]
    · simp only [loop, h, if_false, run]
      exact ih _

/-- What `parseFileBFS` returns is the state after `fuel` iterations, with an
empty queue and the deferred closes done. -/
theorem parseFileBFS_eq_some (env : Env) (cfg : Config) (filename : Str) (tree : Tree)
    (fuel : Nat) (s : State) :
    parseFileBFS env cfg filename tree fuel = some s ↔
      (run env cfg fuel (initState filename tree)).queue = [] ∧
      s = { run env cfg fuel (initState filename tree) with openFiles := [] } := by
  unfold parseFileBFS
  rw [loop_eq]
  by_cases h : (run env cfg fuel (initState filename tree)).queue = []
  · simp [h, eq_comm]
  · simp [h]

/-- C2: for every vault, blacklist and `LevelNesting`, `parseFileBFS` returns:
within some number of iterations the queue loop reaches an empty queue. -/
theorem parseFileBFS_terminates (env : Env) (cfg : Config) (filename : Str) (tree : Tree) :
    ∃ fuel s, parseFileBFS env cfg filename tree fuel = some s ∧ s.queue = [] := by
  obtain ⟨n, hn⟩ := run_ends env cfg filename tree
  exact ⟨n, _, (parseFileBFS_eq_some env cfg filename tree n _).2 ⟨hn, rfl⟩, hn⟩

/-! ## The claims on the traversal engine -/

theorem Outcome.not_processed (out : Outcome) (h : out.processed = false) :
    out.copied = false ∧ out.children = [] := by
  cases out <;> simp_all [Outcome.copied, Outcome.processed, Outcome.children]

theorem step_parsed_mono (env : Env) (cfg : Config) (s : State) (f : Str)
    (h : f ∈ s.parsedFiles) : f ∈ (step env cfg s).parsedFiles := by
  cases hq : s.queue with
  | nil => rw [step_of_empty env cfg s hq]; exact h
  | cons cur q =>
    by_cases hwhy : cfg.LevelNesting < cur.level ∨ cur.file ∈ cfg.BlackList ∨
        cur.file ∈ s.parsedFiles
    · obtain ⟨out, _, hs⟩ := step_skip env cfg s cur q hq hwhy
      rw [hs]; exact h
    · simp only [not_or] at hwhy
      obtain ⟨out, _, _, _, _, hp2, _⟩ :=
        step_process env cfg s cur q hq hwhy.1 hwhy.2.1 hwhy.2.2
      rw [hp2]; exact List.mem_cons_of_mem _ h

theorem run_parsed_mono (env : Env) (cfg : Config) (m : Nat) (s : State) (f : Str)
    (h : f ∈ s.parsedFiles) : f ∈ (run env cfg m s).parsedFiles := by
  induction m generalizing s with
  | zero => exact h
  | succ m ih => exact ih _ (step_parsed_mono env cfg s f h)

/-- C3: after any number of iterations no name has been processed more than
once; and a name that is in `parsedFiles` stays there, and every later item
with that name is only taken off the queue: `parsedFiles`, the export tree and
the open files stay as they are and nothing is put on the queue. -/
theorem processed_at_most_once (env : Env) (cfg : Config) (filename : Str) (tree : Tree)
    (n : Nat) :
    (∀ f, processedCount (run env cfg n (initState filename tree)).trace f ≤ 1) ∧
    (∀ f, f ∈ (run env cfg n (initState filename tree)).parsedFiles → ∀ m,
      f ∈ (run env cfg (n + m) (initState filename tree)).parsedFiles ∧
      ∀ cur q, (run env cfg (n + m) (initState filename tree)).queue = cur :: q →
        cur.file = f →
        ∃ out, out.processed = false ∧
          step env cfg (run env cfg (n + m) (initState filename tree))
            = { run env cfg (n + m) (initState filename tree) with
                queue := q,
                trace := (run env cfg (n + m) (initState filename tree)).trace ++ [(cur, out)] }) := by
  constructor
  · exact (Inv.after_run n (Inv.initial env cfg filename tree)).once
  · intro f hf m
    have hm : f ∈ (run env cfg (n + m) (initState filename tree)).parsedFiles := by
      rw [run_add]; exact run_parsed_mono env cfg m _ f hf
    refine ⟨hm, ?_⟩
    intro cur q hq hcur
    exact step_skip env cfg _ cur q hq (Or.inr (Or.inr (by rw [hcur]; exact hm)))

/-- C4: after any number of iterations every processed item has a level of at
most `LevelNesting`; and an item deeper than `LevelNesting` is only taken off
the queue: `parsedFiles`, the export tree and the open files stay as they are
and nothing is put on the queue. -/
theorem depth_limit (env : Env) (cfg : Config) (filename : Str) (tree : Tree) (n : Nat) :
    (∀ e ∈ (run env cfg n (initState filename tree)).trace,
      (e.2.processed = true ∨ e.2.copied = true ∨ e.2.children ≠ []) →
        e.1.level ≤ cfg.LevelNesting) ∧
    (∀ cur q, (run env cfg n (initState filename tree)).queue = cur :: q →
      cfg.LevelNesting < cur.level →
      step env cfg (run env cfg n (initState filename tree))
        = { run env cfg n (initState filename tree) with
            queue := q,
            trace := (run env cfg n (initState filename tree)).trace
              ++ [(cur, Outcome.tooDeep)] }) := by
  constructor
  · intro e he h
    have hpr : e.2.processed = true := by
      cases hp : e.2.processed with
      | true => rfl
      | false =>
        have := Outcome.not_processed e.2 hp
        rcases h with h | h | h
        · rw [hp] at h; cases h
        · rw [this.1] at h; cases h
        · exact absurd this.2 h
    exact ((Inv.after_run n (Inv.initial env cfg filename tree)).faithful e he hpr).2.2.1
  · intro cur q hq hdeep
    unfold step
    rw [hq]
    simp [hdeep]

/-- C5: a name of the blacklist is never in `parsedFiles`; no item with that
name is processed, copied or expanded; and every item with that name is only
taken off the queue. -/
theorem blacklist_never_processed (env : Env) (cfg : Config) (filename : Str) (tree : Tree)
    (n : Nat) (name : Str) (hb : name ∈ cfg.BlackList) :
    name ∉ (run env cfg n (initState filename tree)).parsedFiles ∧
    (∀ e ∈ (run env cfg n (initState filename tree)).trace, e.1.file = name →
      e.2.processed = false ∧ e.2.copied = false ∧ e.2.children = []) ∧
    (∀ cur q, (run env cfg n (initState filename tree)).queue = cur :: q → cur.file = name →
      ∃ out, out.processed = false ∧
        step env cfg (run env cfg n (initState filename tree))
          = { run env cfg n (initState filename tree) with
              queue := q,
              trace := (run env cfg n (initState filename tree)).trace ++ [(cur, out)] }) := by
  have hinv := Inv.after_run n (Inv.initial env cfg filename tree)
  have hno : ∀ e ∈ (run env cfg n (initState filename tree)).trace, e.1.file = name →
      e.2.processed = false := by
    intro e he hf
    cases hp : e.2.processed with
    | false => rfl
    | true => exact absurd (hf ▸ hb) (hinv.faithful e he hp).2.2.2
  refine ⟨?_, ?_, ?_⟩
  · intro hmem
    obtain ⟨e, he, hf, hp⟩ := (hinv.parsed_iff name).1 hmem
    rw [hno e he hf] at hp
    cases hp
  · intro e he hf
    exact ⟨hno e he hf, Outcome.not_processed e.2 (hno e he hf)⟩
  · intro cur q hq hcur
    exact step_skip env cfg _ cur q hq (Or.inr (Or.inl (by rw [hcur]; exact hb)))

/-- The witness of `blacklist_never_processed`: the sample vault with `Note`
blacklisted, after the iteration that processed `Home` and queued `Note`. -/
theorem blacklist_never_processed_witness :
    "Note".toList ∈ (sampleCfg ["Note"] 3).BlackList ∧
    ((run sampleEnv (sampleCfg ["Note"] 3) 1 (initState "Home".toList [])).queue.map Item.file
      = ["Note".toList, "Other".toList]) ∧
    "Note".toList ∉ (run sampleEnv (sampleCfg ["Note"] 3) 3 (initState "Home".toList [])).parsedFiles :=
  ⟨by decide, by decide,
    (blacklist_never_processed sampleEnv (sampleCfg ["Note"] 3) "Home".toList [] 3 "Note".toList
      (by decide)).1⟩

/-! ## The resolver and normalization -/

theorem walkedCalls_of_no_failure (calls : List WalkCall)
    (hok : ∀ c ∈ calls, c.isFailure = false) : walkedCalls calls = calls := by
  induction calls with
  | nil => rfl
  | cons c rest ih =>
    have hc := hok c (List.mem_cons_self _ _)
    unfold walkedCalls at ih ⊢
    rw [List.takeWhile_cons]
    simp only [hc, Bool.not_false, if_true]
    rw [ih (fun x hx => hok x (List.mem_cons_of_mem _ hx))]

theorem isMatchingFile_iff (env : Env) (filename : Str) (c : WalkCall) :
    isMatchingFile env filename c = true ↔
      ∃ path info, c = WalkCall.visit path info ∧ info.IsDir = false ∧
        env.nfc (TrimSuffix info.Name (Ext info.Name)) = env.nfc filename := by
  cases c with
  | failure path err => simp [isMatchingFile]
  | visit path info =>
    simp only [isMatchingFile, Bool.and_eq_true, Bool.not_eq_true', decide_eq_true_eq,
      WalkCall.visit.injEq]
    constructor
    · rintro ⟨h1, h2⟩
      exact ⟨path, info, ⟨rfl, rfl⟩, h1, h2⟩
    · rintro ⟨p, i, ⟨rfl, rfl⟩, h1, h2⟩
      exact ⟨h1, h2⟩

theorem mem_matchingPaths (env : Env) (filename : Str) (calls : List WalkCall)
    (hok : ∀ c ∈ calls, c.isFailure = false) (p : Str) :
    p ∈ matchingPaths env filename calls ↔
      ∃ c ∈ calls, isMatchingFile env filename c = true ∧ c.path = p := by
  unfold matchingPaths
  rw [walkedCalls_of_no_failure calls hok]
  simp only [List.mem_map, List.mem_filter]
  constructor
  · rintro ⟨c, ⟨hc, hm⟩, hp⟩
    exact ⟨c, hc, hm, hp⟩
  · rintro ⟨c, hc, hm, hp⟩
    exact ⟨c, ⟨hc, hm⟩, hp⟩

/-- C11: for a directory whose walk meets no error (and hands out no empty
path), and `nfc` any normalization, `getFilePathByName` returns a non-empty path
exactly when the walk reports a regular file whose name, without its final
extension and normalized, equals the normalized logical name; and the path it
returns is the path of such a file. -/
theorem getFilePathByName_nfc (env : Env) (sourceDir filename : Str)
    (hok : ∀ c ∈ env.walk sourceDir, c.isFailure = false)
    (hpath : ∀ c ∈ env.walk sourceDir, c.path ≠ []) :
    ((getFilePathByName env sourceDir filename).1 ≠ [] ↔
      ∃ path info, WalkCall.visit path info ∈ env.walk sourceDir ∧ info.IsDir = false ∧
        env.nfc (TrimSuffix info.Name (Ext info.Name)) = env.nfc filename) ∧
    ((getFilePathByName env sourceDir filename).1 ≠ [] →
      ∃ info, WalkCall.visit (getFilePathByName env sourceDir filename).1 info
          ∈ env.walk sourceDir ∧ info.IsDir = false ∧
        env.nfc (TrimSuffix info.Name (Ext info.Name)) = env.nfc filename) ∧
    (getFilePathByName env sourceDir filename).2 = none := by
  have hres := getFilePathByName_eq env sourceDir filename
  have hmem := mem_matchingPaths env filename (env.walk sourceDir) hok
  have hfound : (getFilePathByName env sourceDir filename).1 ≠ [] →
      ∃ info, WalkCall.visit (getFilePathByName env sourceDir filename).1 info
          ∈ env.walk sourceDir ∧ info.IsDir = false ∧
        env.nfc (TrimSuffix info.Name (Ext info.Name)) = env.nfc filename := by
    intro hne
    have hnil : matchingPaths env filename (env.walk sourceDir) ≠ [] := by
      intro e
      rw [hres, e] at hne
      exact hne rfl
    have hin := getLastD_mem _ ([] : Str) hnil
    rw [← hres] at hin
    obtain ⟨c, hc, hm, hp⟩ := (hmem _).1 hin
    obtain ⟨path, info, rfl, hd, hn⟩ := (isMatchingFile_iff env filename c).1 hm
    have hp2 : path = (getFilePathByName env sourceDir filename).1 := hp
    rw [hp2] at hc
    exact ⟨info, hc, hd, hn⟩
  refine ⟨⟨?_, ?_⟩, hfound, ?_⟩
  · intro hne
    obtain ⟨info, hc, hd, hn⟩ := hfound hne
    exact ⟨_, info, hc, hd, hn⟩
  · rintro ⟨path, info, hc, hd, hn⟩
    have hm : isMatchingFile env filename (WalkCall.visit path info) = true :=
      (isMatchingFile_iff env filename _).2 ⟨path, info, rfl, hd, hn⟩
    have hin : path ∈ matchingPaths env filename (env.walk sourceDir) :=
      (hmem path).2 ⟨_, hc, hm, rfl⟩
    have hnil : matchingPaths env filename (env.walk sourceDir) ≠ [] :=
      List.ne_nil_of_mem hin
    have hlast := getLastD_mem _ ([] : Str) hnil
    rw [← hres] at hlast
    obtain ⟨c, hc2, _, hp⟩ := (hmem _).1 hlast
    rw [← hp]
    exact hpath c hc2
  · unfold getFilePathByName
    generalize env.walk sourceDir = calls at hok
    generalize ([] : Str) = fp
    induction calls generalizing fp with
    | nil => rfl
    | cons c rest ih =>
      have hc := hok c (List.mem_cons_self _ _)
      have hrest : ∀ x ∈ rest, x.isFailure = false :=
        fun x hx => hok x (List.mem_cons_of_mem _ hx)
      cases c with
      | failure path err => simp [WalkCall.isFailure] at hc
      | visit path info =>
        simp only [getFilePathByNameWalk]
        split
        · split
          · exact ih hrest _
          · exact ih hrest _
        · exact ih hrest _

/-- The witness of `getFilePathByName_nfc`: the file name `Cafe` + U+0301 `.md`
in decomposed form is found for the link `Café` in composed form. -/
theorem getFilePathByName_nfc_witness :
    "Cafe\u0301".toList ≠ "Café".toList ∧
    (getFilePathByName accentEnv "V".toList "Café".toList).1 = "V/Cafe\u0301.md".toList ∧
    (getFilePathByName accentEnv "V".toList "Café".toList).1 ≠ [] ∧
    (∃ path info, WalkCall.visit path info ∈ accentEnv.walk "V".toList ∧ info.IsDir = false ∧
        accentEnv.nfc (TrimSuffix info.Name (Ext info.Name)) = accentEnv.nfc "Café".toList) :=
  ⟨by decide, by decide, by decide,
    (getFilePathByName_nfc accentEnv "V".toList "Café".toList (by decide) (by decide)).1.1
      (by decide)⟩

/-! ## The media collector -/

theorem closeBrackets_some (s r : List Char) (h : closeBrackets s = some r) :
    s = ']' :: ']' :: r := by
  cases s with
  | nil => simp [closeBrackets] at h
  | cons a t =>
    cases t with
    | nil => simp [closeBrackets] at h
    | cons b u =>
      simp only [closeBrackets] at h
      split at h
      · rename_i hab
        simp only [Option.some.injEq] at h
        rw [hab.1, hab.2, h]
      · cases h

theorem close_in_cons (c : Char) (t : List Char) :
    [']', ']'] <:+: c :: t ↔ (∃ r, c :: t = ']' :: ']' :: r) ∨ [']', ']'] <:+: t := by
  constructor
  · rintro ⟨a, b, h⟩
    cases a with
    | nil => exact Or.inl ⟨b, h.symm⟩
    | cons x a =>
      simp only [List.cons_append, List.cons.injEq] at h
      exact Or.inr ⟨a, b, by simpa using h.2⟩
  · rintro (⟨r, h⟩ | ⟨a, b, h⟩)
    · exact ⟨[], r, by rw [h]; rfl⟩
    · exact ⟨c :: a, b, by rw [← h]; rfl⟩

theorem close_in_append (g r : List Char) : [']', ']'] <:+: g ++ ']' :: ']' :: r :=
  ⟨g, r, by simp⟩

theorem not_close_in_nil : ¬ [']', ']'] <:+: ([] : List Char) := by
  rintro ⟨a, b, h⟩
  cases a <;> simp at h

/-- What the lazy group of the document-link pattern holds: the text up to the
first `]]`, free of line feeds. -/
theorem lazyToClose_some (s g r : List Char) (h : lazyToClose s = some (g, r)) :
    s = g ++ ']' :: ']' :: r ∧ '\n' ∉ g ∧ ¬ [']', ']'] <:+: g := by
  induction s generalizing g with
  | nil => simp [lazyToClose] at h
  | cons c t ih =>
    simp only [lazyToClose] at h
    cases hcb : closeBrackets (c :: t) with
    | some rest =>
      rw [hcb] at h
      simp only [Option.some.injEq, Prod.mk.injEq] at h
      obtain ⟨rfl, rfl⟩ := h
      exact ⟨closeBrackets_some _ _ hcb, by simp, not_close_in_nil⟩
    | none =>
      rw [hcb] at h
      by_cases hn : c = '\n'
      · simp [hn] at h
      · simp only [hn, if_false, Option.map_eq_some', Prod.mk.injEq] at h
        obtain ⟨⟨g1, r1⟩, hl, hg, hr⟩ := h
        simp only at hg hr
        subst hg; subst hr
        obtain ⟨h1, h2, h3⟩ := ih g1 hl
        refine ⟨by rw [h1]; rfl, ?_, ?_⟩
        · simp only [List.mem_cons, not_or]
          exact ⟨fun e => hn e.symm, h2⟩
        · intro hin
          rcases (close_in_cons c g1).1 hin with ⟨r2, hr2⟩ | hin2
          · simp only [List.cons.injEq] at hr2
            obtain ⟨hc, hg1⟩ := hr2
            rw [h1, hg1, hc] at hcb
            simp [closeBrackets] at hcb
          · exact h3 hin2

theorem matchFileLink_some (s g r : List Char) (h : matchFileLink s = some (g, r)) :
    [']', ']'] <:+: s ∧ '\n' ∉ g ∧ ¬ [']', ']'] <:+: g := by
  cases s with
  | nil => simp [matchFileLink] at h
  | cons a t =>
    cases t with
    | nil => simp [matchFileLink] at h
    | cons b u =>
      simp only [matchFileLink] at h
      split at h
      · obtain ⟨h1, h2, h3⟩ := lazyToClose_some u g r h
        refine ⟨?_, h2, h3⟩
        rw [h1]
        exact ⟨a :: b :: g, r, by simp⟩
      · cases h

theorem findFileLinks_no_close (k : Nat) (s : List Char) (h : ¬ [']', ']'] <:+: s) :
    findFileLinks k s = [] := by
  induction s generalizing k with
  | nil => cases k <;> simp [findFileLinks]
  | cons c t ih =>
    have ht : ¬ [']', ']'] <:+: t := fun e => h ((close_in_cons c t).2 (Or.inr e))
    cases k with
    | succ k => simp only [findFileLinks]; exact ih k ht
    | zero =>
      cases hm : matchFileLink (c :: t) with
      | none => rw [findFileLinks_none c t hm]; exact ih 0 ht
      | some gr => exact absurd (matchFileLink_some _ gr.1 gr.2 hm).1 h

theorem findFileLinks_groups (k : Nat) (s : List Char) :
    ∀ g ∈ findFileLinks k s, '\n' ∉ g ∧ ¬ [']', ']'] <:+: g := by
  induction s generalizing k with
  | nil => cases k <;> simp [findFileLinks]
  | cons c t ih =>
    cases k with
    | succ k => simp only [findFileLinks]; exact ih k
    | zero =>
      cases hm : matchFileLink (c :: t) with
      | none => rw [findFileLinks_none c t hm]; exact ih 0
      | some gr =>
        intro g hg
        simp only [findFileLinks, hm, List.mem_cons] at hg
        rcases hg with hg | hg
        · rw [hg]
          exact (matchFileLink_some _ gr.1 gr.2 hm).2
        · exact ih _ g hg

theorem fileLinkName_take (m1 name : List Char) (h : fileLinkName m1 = some name) :
    ∃ n, name = m1.take n := by
  unfold fileLinkName at h
  split at h
  · cases h
  · simp only at h
    split at h
    · exact ⟨_, (Option.some.inj h).symm⟩
    · exact ⟨m1.length, by rw [List.take_length]; exact (Option.some.inj h).symm⟩

theorem hintAndClose_some (s r : List Char) (h : hintAndClose s = some r) :
    [']', ']'] <:+: s := by
  cases s with
  | nil => simp [hintAndClose] at h
  | cons c t =>
    simp only [hintAndClose] at h
    have hplain : ∀ r1, closeBrackets (c :: t) = some r1 → [']', ']'] <:+: c :: t := by
      intro r1 h1
      rw [closeBrackets_some _ _ h1]
      exact close_in_append [] r1
    split at h
    · cases hd : closeBrackets (List.dropWhile isDigit t) with
      | some rest =>
        have e := closeBrackets_some _ _ hd
        obtain ⟨pre, hpre⟩ := List.dropWhile_suffix (l := t) isDigit
        rw [e] at hpre
        exact ⟨c :: pre, rest, by rw [← hpre]; simp⟩
      | none =>
        rw [hd] at h
        exact hplain r h
    · exact hplain r h

theorem lazyToHintClose_some (s g r : List Char) (h : lazyToHintClose s = some (g, r)) :
    [']', ']'] <:+: s := by
  induction s generalizing g r with
  | nil => simp [lazyToHintClose] at h
  | cons c t ih =>
    simp only [lazyToHintClose] at h
    cases hcb : hintAndClose (c :: t) with
    | some rest => exact hintAndClose_some _ rest hcb
    | none =>
      rw [hcb] at h
      by_cases hn : c = '\n'
      · simp [hn] at h
      · simp only [hn, if_false, Option.map_eq_some', Prod.mk.injEq] at h
        obtain ⟨⟨g1, r1⟩, hl, _, _⟩ := h
        exact (close_in_cons c t).2 (Or.inr (ih g1 r1 hl))

theorem matchMediaLink_some (s g r : List Char) (h : matchMediaLink s = some (g, r)) :
    [']', ']'] <:+: s := by
  cases s with
  | nil => simp [matchMediaLink] at h
  | cons a t =>
    cases t with
    | nil => simp [matchMediaLink] at h
    | cons b u =>
      cases u with
      | nil => simp [matchMediaLink] at h
      | cons c v =>
        simp only [matchMediaLink] at h
        split at h
        · obtain ⟨x, y, hxy⟩ := lazyToHintClose_some v g r h
          exact ⟨a :: b :: c :: x, y, by rw [← hxy]; simp⟩
        · cases h

theorem findMediaLinks_no_close (k : Nat) (s : List Char) (h : ¬ [']', ']'] <:+: s) :
    findMediaLinks k s = [] := by
  induction s generalizing k with
  | nil => cases k <;> simp [findMediaLinks]
  | cons c t ih =>
    have ht : ¬ [']', ']'] <:+: t := fun e => h ((close_in_cons c t).2 (Or.inr e))
    cases k with
    | succ k => simp only [findMediaLinks]; exact ih k ht
    | zero =>
      cases hm : matchMediaLink (c :: t) with
      | none => simp only [findMediaLinks, hm]; exact ih 0 ht
      | some gr => exact absurd (matchMediaLink_some _ gr.1 gr.2 hm) h

/-- C14, as stated, fails in its second part: on `[[ x [[a]]` the match starts
at the first `[[`, and the name `nestingFiles` returns is ` x [[a`, which
contains `[[`. -/
theorem nestingFiles_stray_open_counterexample :
    nestingFiles "[[ x [[a]]".toList = [" x [[a".toList] ∧
    "[[".toList <:+: " x [[a".toList :=
  ⟨by decide, ⟨" x ".toList, "a".toList, by decide⟩⟩

/-- C14 (amended): on a line without `]]` both `nestingFiles` and `nestingMedia`
return the empty list; on every line, no name returned by `nestingFiles`
contains `]]` or a line feed; and a `[[` between the brackets is kept: for texts
`junk` and `name` without `]`, `|` or line feed such that `junk[[name` does not
end in an image extension, `nestingFiles` on `[[junk[[name]]` returns the one
name `junk[[name`. -/
theorem nesting_unterminated (line : Str) :
    (¬ "]]".toList <:+: line → nestingFiles line = [] ∧ nestingMedia line = []) ∧
    (∀ name ∈ nestingFiles line, '\n' ∉ name ∧ ¬ "]]".toList <:+: name) ∧
    (∀ junk name : Str, ']' ∉ junk → ']' ∉ name → '|' ∉ junk → '|' ∉ name →
      '\n' ∉ junk → '\n' ∉ name →
      ToLower (Ext (junk ++ "[[".toList ++ name)) ∉ imageExtensions →
      nestingFiles ("[[".toList ++ (junk ++ "[[".toList ++ name) ++ "]]".toList)
        = [junk ++ "[[".toList ++ name]) := by
  have e : "]]".toList = [']', ']'] := rfl
  rw [e]
  refine ⟨?_, ?_, ?_⟩
  · intro h
    constructor
    · unfold nestingFiles
      rw [findFileLinks_no_close 0 line h]
      rfl
    · unfold nestingMedia
      rw [findMediaLinks_no_close 0 line h]
      rfl
  · intro name hname
    unfold nestingFiles at hname
    obtain ⟨g, hg, hgn⟩ := List.mem_filterMap.1 hname
    obtain ⟨h1, h2⟩ := findFileLinks_groups 0 line g hg
    obtain ⟨n, rfl⟩ := fileLinkName_take g name hgn
    constructor
    · intro hin
      exact h1 (List.mem_of_mem_take hin)
    · rintro ⟨a, b, hab⟩
      apply h2
      refine ⟨a, b ++ g.drop n, ?_⟩
      have := List.take_append_drop n g
      rw [← hab] at this
      calc a ++ [']', ']'] ++ (b ++ List.drop n g)
          = a ++ [']', ']'] ++ b ++ List.drop n g := by simp
        _ = g := this
  · intro junk name j1 n1 j2 n2 j3 n3 himg
    have hopen : "[[".toList = ['[', '['] := rfl
    rw [hopen] at himg ⊢
    have hb : ∀ c, c ∈ junk ++ ['[', '['] ++ name → c ≠ ']' ∧ c ≠ '|' ∧ c ≠ '\n' := by
      intro c hc
      simp only [List.mem_append, List.mem_cons, List.mem_singleton, List.not_mem_nil,
        or_false] at hc
      rcases hc with (hc | hc | hc) | hc
      · exact ⟨fun e => j1 (e ▸ hc), fun e => j2 (e ▸ hc), fun e => j3 (e ▸ hc)⟩
      · rw [hc]; decide
      · rw [hc]; decide
      · exact ⟨fun e => n1 (e ▸ hc), fun e => n2 (e ▸ hc), fun e => n3 (e ▸ hc)⟩
    show nestingFiles ('[' :: '[' :: ((junk ++ ['[', '['] ++ name) ++ [']', ']'])) = _
    unfold nestingFiles
    rw [findFileLinks_single _ (fun h => (hb _ h).1 rfl) (fun h => (hb _ h).2.2 rfl)]
    have hfl := fileLinkName_plain (junk ++ ['[', '['] ++ name) (fun h => (hb _ h).2.1 rfl) himg
    rw [List.filterMap_cons_some hfl]
    rfl

/-- The witness of `nesting_unterminated`: `[[ x [[a]]` gives the one name
` x [[a`. -/
theorem nesting_unterminated_witness :
    nestingFiles ("[[".toList ++ (" x ".toList ++ "[[".toList ++ "a".toList) ++ "]]".toList)
      = [" x ".toList ++ "[[".toList ++ "a".toList] :=
  (nesting_unterminated []).2.2 " x ".toList "a".toList (by decide) (by decide) (by decide)
    (by decide) (by decide) (by decide) (by decide)

theorem reach_of_arrives {env : Env} {cfg : Config} {start : Str} {k : Nat} {f : Str}
    (h : Arrives env cfg start k f) (hb : f ∉ cfg.BlackList) : Reach env cfg start k f := by
  cases h with
  | start => exact Reach.start hb
  | link hr hl => exact Reach.link hr hl hb

/-- The trace entry of one iteration: it is a drop at line 101 exactly when the
item is deeper than `LevelNesting`, and a file it opened is among the open
files afterwards. -/
theorem step_outcome (env : Env) (cfg : Config) (s : State) (cur : Item) (q : List Item)
    (hq : s.queue = cur :: q) :
    ∃ out, (step env cfg s).trace = s.trace ++ [(cur, out)] ∧
      (out = Outcome.tooDeep ↔ cfg.LevelNesting < cur.level) ∧
      (∀ searched filePath copyErr filesMatches mediaMatches mediaErr,
        out = Outcome.expanded searched filePath copyErr filesMatches mediaMatches mediaErr →
        filePath ∈ (step env cfg s).openFiles) := by
  unfold step
  rw [hq]
  by_cases h1 : cfg.LevelNesting < cur.level
  · exact ⟨Outcome.tooDeep, by simp [h1], by simp [h1], by intro _ _ _ _ _ _ h; cases h⟩
  · by_cases h2 : cur.file ∈ cfg.BlackList
    · exact ⟨Outcome.blackListed, by simp [h1, h2], by simp [h1],
        by intro _ _ _ _ _ _ h; cases h⟩
    · by_cases h3 : cur.file ∈ s.parsedFiles
      · exact ⟨Outcome.alreadyParsed, by simp [h1, h2, h3], by simp [h1],
          by intro _ _ _ _ _ _ h; cases h⟩
      · simp only [gt_iff_lt, h1, h2, h3, if_false]
        by_cases hf : (findAndCopy env cur.file cfg.FilesPaths s.tree).filePath = []
        · exact ⟨Outcome.notFound (findAndCopy env cur.file cfg.FilesPaths s.tree).searched,
            by simp [hf], by simp, by intro _ _ _ _ _ _ h; cases h⟩
        · cases hfile : env.file (findAndCopy env cur.file cfg.FilesPaths s.tree).filePath with
          | none =>
            exact ⟨Outcome.openFailed (findAndCopy env cur.file cfg.FilesPaths s.tree).searched
              (findAndCopy env cur.file cfg.FilesPaths s.tree).filePath
              (findAndCopy env cur.file cfg.FilesPaths s.tree).copyErr,
              by simp [hf], by simp, by intro _ _ _ _ _ _ h; cases h⟩
          | some file =>
            refine ⟨Outcome.expanded (findAndCopy env cur.file cfg.FilesPaths s.tree).searched
              (findAndCopy env cur.file cfg.FilesPaths s.tree).filePath
              (findAndCopy env cur.file cfg.FilesPaths s.tree).copyErr
              (file.lines.flatMap nestingFiles) (file.lines.flatMap nestingMedia)
              (copyMatchingFiles env cfg.MediaPath mediaDir (file.lines.flatMap nestingMedia)
                (findAndCopy env cur.file cfg.FilesPaths s.tree).tree).2,
              by simp [hf], by simp, ?_⟩
            intro _ fp _ _ _ _ h
            simp only [Outcome.expanded.injEq] at h
            simp [hf, ← h.2.1]

/-- No iteration closes a file: the deferred `file.Close` calls run at the
return of `parseFileBFS`. -/
theorem step_open_mono (env : Env) (cfg : Config) (s : State) (p : Str)
    (h : p ∈ s.openFiles) : p ∈ (step env cfg s).openFiles := by
  unfold step
  cases hq : s.queue with
  | nil => exact h
  | cons cur q =>
    simp only
    split
    · exact h
    · split
      · exact h
      · split
        · exact h
        · split
          · exact h
          · split
            · exact h
            · exact List.mem_append_left _ h

/-- The items one iteration adds to the queue are links of the item it took,
which is then off the blacklist, one level deeper. -/
theorem step_kids (env : Env) (cfg : Config) (s : State) (cur : Item) (q : List Item)
    (hq : s.queue = cur :: q) :
    ∃ kids, (step env cfg s).queue = q ++ kids ∧
      ∀ c ∈ kids, c.level = cur.level + 1 ∧ c.file ∈ linksOf env cfg cur.file ∧
        cur.file ∉ cfg.BlackList := by
  by_cases hwhy : cfg.LevelNesting < cur.level ∨ cur.file ∈ cfg.BlackList ∨
      cur.file ∈ s.parsedFiles
  · obtain ⟨out, _, hs⟩ := step_skip env cfg s cur q hq hwhy
    exact ⟨[], by rw [hs]; simp, by simp⟩
  · simp only [not_or] at hwhy
    obtain ⟨out, _, _, _, hq2, _, _⟩ :=
      step_process env cfg s cur q hq hwhy.1 hwhy.2.1 hwhy.2.2
    refine ⟨childItems env cfg cur, hq2, ?_⟩
    intro c hc
    have := mem_childItems env cfg cur c hc
    exact ⟨this.1, this.2, hwhy.2.1⟩

theorem Order.at_start (env : Env) (cfg : Config) (start : Str) (tree : Tree) :
    Order env cfg start (initState start tree) where
  trace_sorted := by simp [initState]
  deep := by intro e he; simp [initState] at he
  origin_queue := by
    intro a ha
    simp only [initState, List.mem_singleton] at ha
    subst ha
    exact ⟨0, by simp, Arrives.start⟩
  origin_trace := by intro e he; simp [initState] at he
  still_open := by intro e he; simp [initState] at he

/-- One iteration keeps the second invariant. -/
theorem Order.kept_by_step {env : Env} {cfg : Config} {start : Str} {s : State}
    (hinv : Inv env cfg start s) (h : Order env cfg start s) :
    Order env cfg start (step env cfg s) := by
  cases hq : s.queue with
  | nil => rw [step_of_empty env cfg s hq]; exact h
  | cons cur q =>
    obtain ⟨out, ht, hdeep, hopen⟩ := step_outcome env cfg s cur q hq
    obtain ⟨kids, hq2, hkids⟩ := step_kids env cfg s cur q hq
    have hcur : cur ∈ s.queue := by rw [hq]; exact List.mem_cons_self _ _
    have hmem : ∀ e, e ∈ (step env cfg s).trace ↔ e ∈ s.trace ∨ e = (cur, out) := by
      intro e; rw [ht]; simp
    refine
      { trace_sorted := ?_, deep := ?_, origin_queue := ?_, origin_trace := ?_,
        still_open := ?_ }
    · rw [ht, List.pairwise_append]
      refine ⟨h.trace_sorted, List.pairwise_singleton _ _, ?_⟩
      intro a ha b hb
      rw [List.mem_singleton] at hb
      subst hb
      exact hinv.trace_le a ha cur hcur
    · intro e he
      rcases (hmem e).1 he with he | he
      · exact h.deep e he
      · subst he; exact hdeep
    · intro a ha
      rw [hq2] at ha
      rcases List.mem_append.1 ha with ha | ha
      · exact h.origin_queue a (by rw [hq]; exact List.mem_cons_of_mem _ ha)
      · obtain ⟨k, hk, harr⟩ := h.origin_queue cur hcur
        obtain ⟨hl, hlink, hb⟩ := hkids a ha
        refine ⟨k + 1, ?_, Arrives.link (reach_of_arrives harr hb) hlink⟩
        rw [hl, hk]
        push_cast
        rfl
    · intro e he
      rcases (hmem e).1 he with he | he
      · exact h.origin_trace e he
      · subst he; exact h.origin_queue cur hcur
    · intro e he searched filePath copyErr filesMatches mediaMatches mediaErr hout
      rcases (hmem e).1 he with he | he
      · exact step_open_mono env cfg s filePath
          (h.still_open e he searched filePath copyErr filesMatches mediaMatches mediaErr hout)
      · subst he
        exact hopen searched filePath copyErr filesMatches mediaMatches mediaErr hout

/-- Both invariants hold after any number of iterations. -/
theorem invariants_after_run (env : Env) (cfg : Config) (start : Str) (tree : Tree)
    (n : Nat) :
    Inv env cfg start (run env cfg n (initState start tree)) ∧
    Order env cfg start (run env cfg n (initState start tree)) := by
  induction n with
  | zero => exact ⟨Inv.initial env cfg start tree, Order.at_start env cfg start tree⟩
  | succ n ih =>
    rw [run_succ]
    exact ⟨Inv.after_step ih.1, Order.kept_by_step ih.1 ih.2⟩

/-- C13: after any number of iterations the levels of the queued items do not
decrease from the front of the queue to the back and differ by at most one, and
the items taken so far were taken in non-decreasing order of level, none deeper
than a queued one. -/
theorem level_order (env : Env) (cfg : Config) (filename : Str) (tree : Tree) (n : Nat) :
    (run env cfg n (initState filename tree)).queue.Pairwise (fun a b => a.level ≤ b.level) ∧
    (∀ a ∈ (run env cfg n (initState filename tree)).queue,
      ∀ b ∈ (run env cfg n (initState filename tree)).queue, b.level ≤ a.level + 1) ∧
    (run env cfg n (initState filename tree)).trace.Pairwise
      (fun a b => a.1.level ≤ b.1.level) ∧
    (∀ e ∈ (run env cfg n (initState filename tree)).trace,
      ∀ a ∈ (run env cfg n (initState filename tree)).queue, e.1.level ≤ a.level) := by
  obtain ⟨hinv, hord⟩ := invariants_after_run env cfg filename tree n
  exact ⟨hinv.sorted, hinv.span, hord.trace_sorted, hinv.trace_le⟩

/-! ## After a drop for depth -/

/-- Every item taken after one that was dropped for its depth is at least as
deep, and is dropped for its depth as well. -/
theorem later_items_too_deep (env : Env) (cfg : Config) (filename : Str) (tree : Tree)
    (n : Nat) (pre post : List (Item × Outcome)) (dropped : Item)
    (htr : (run env cfg n (initState filename tree)).trace
      = pre ++ (dropped, Outcome.tooDeep) :: post) :
    ∀ e ∈ post, dropped.level ≤ e.1.level ∧ e.2 = Outcome.tooDeep := by
  obtain ⟨_, hord⟩ := invariants_after_run env cfg filename tree n
  have hsorted := hord.trace_sorted
  rw [htr, List.pairwise_append] at hsorted
  have hle := (List.pairwise_cons.1 hsorted.2.1).1
  have hdrop : cfg.LevelNesting < dropped.level :=
    (hord.deep (dropped, Outcome.tooDeep) (by rw [htr]; simp)).1 rfl
  intro e he
  have h1 : dropped.level ≤ e.1.level := hle e he
  refine ⟨h1, (hord.deep e (by rw [htr]; simp [he])).2 ?_⟩
  omega

/-- C15, as stated, fails: there is no run of `parseFileBFS` in which an item is
dropped for its depth and a later item with the same name is processed at a
smaller level. -/
theorem reprocess_after_drop_counterexample :
    ¬ ∃ (env : Env) (cfg : Config) (filename : Str) (tree : Tree) (n : Nat)
        (pre post : List (Item × Outcome)) (dropped : Item),
      (run env cfg n (initState filename tree)).trace
        = pre ++ (dropped, Outcome.tooDeep) :: post ∧
      ∃ e ∈ post, e.1.file = dropped.file ∧ e.1.level < dropped.level ∧
        e.2.processed = true := by
  rintro ⟨env, cfg, filename, tree, n, pre, post, dropped, htr, e, he, _, hlt, _⟩
  have := (later_items_too_deep env cfg filename tree n pre post dropped htr e he).1
  omega

/-- C15 (amended): in every run of `parseFileBFS`, every item taken after an item
that was dropped for its depth is at least as deep and is dropped for its depth
too; no name is processed after any item was dropped for its depth. -/
theorem nothing_processed_after_drop (env : Env) (cfg : Config) (filename : Str)
    (tree : Tree) (n : Nat) (pre post : List (Item × Outcome)) (dropped : Item)
    (htr : (run env cfg n (initState filename tree)).trace
      = pre ++ (dropped, Outcome.tooDeep) :: post) :
    ∀ e ∈ post, dropped.level ≤ e.1.level ∧ e.2 = Outcome.tooDeep ∧
      e.2.processed = false := by
  intro e he
  obtain ⟨h1, h2⟩ := later_items_too_deep env cfg filename tree n pre post dropped htr e he
  exact ⟨h1, h2, by rw [h2]; rfl⟩

/-- The witness of `nothing_processed_after_drop`: the sample vault with
`LevelNesting = 2`; `Home` comes back at level 3 and is dropped, and `Leaf`,
taken after it, is dropped too. -/
theorem nothing_processed_after_drop_witness :
    (run sampleEnv (sampleCfg [] 2) 5 (initState "Home".toList [])).trace.map
        (fun e => (e.1, e.2.processed))
      = [({ file := "Home".toList, level := 1 }, true),
         ({ file := "Note".toList, level := 2 }, true),
         ({ file := "Other".toList, level := 2 }, true),
         ({ file := "Home".toList, level := 3 }, false),
         ({ file := "Leaf".toList, level := 3 }, false)] ∧
    ∀ e ∈ [(({ file := "Leaf".toList, level := 3 } : Item), Outcome.tooDeep)],
      (3 : Int) ≤ e.1.level ∧ e.2 = Outcome.tooDeep ∧ e.2.processed = false :=
  ⟨by decide,
    nothing_processed_after_drop sampleEnv (sampleCfg [] 2) "Home".toList [] 5
      ((run sampleEnv (sampleCfg [] 2) 3 (initState "Home".toList [])).trace)
      [(({ file := "Leaf".toList, level := 3 } : Item), Outcome.tooDeep)]
      { file := "Home".toList, level := 3 } (by decide)⟩

/-! ## Open files -/

/-- C16 (the code at the failing input): in the sample vault, when the second
iteration starts the file of `Home`, opened by the first iteration, is still
open, and when the third starts two files are open; they are closed only when
`parseFileBFS` returns. -/
theorem openFiles_kept_until_return :
    (run sampleEnv (sampleCfg [] 3) 1 (initState "Home".toList [])).openFiles
      = ["A/Home.md".toList] ∧
    (run sampleEnv (sampleCfg [] 3) 1 (initState "Home".toList [])).queue ≠ [] ∧
    (run sampleEnv (sampleCfg [] 3) 2 (initState "Home".toList [])).openFiles
      = ["A/Home.md".toList, "A/sub/Note.txt".toList] ∧
    (run sampleEnv (sampleCfg [] 3) 2 (initState "Home".toList [])).queue ≠ [] ∧
    (run sampleEnv (sampleCfg [] 3) 6 (initState "Home".toList [])).queue = [] ∧
    (run sampleEnv (sampleCfg [] 3) 6 (initState "Home".toList [])).openFiles.length = 4 ∧
    (parseFileBFS sampleEnv (sampleCfg [] 3) "Home".toList [] 6).map State.openFiles
      = some [] := by
  decide

/-- In every run, a file opened by an iteration is still open after any number
of later iterations. -/
theorem opened_files_stay_open (env : Env) (cfg : Config) (filename : Str) (tree : Tree)
    (n : Nat) :
    ∀ e ∈ (run env cfg n (initState filename tree)).trace,
      ∀ searched filePath copyErr filesMatches mediaMatches mediaErr,
      e.2 = Outcome.expanded searched filePath copyErr filesMatches mediaMatches mediaErr →
      filePath ∈ (run env cfg n (initState filename tree)).openFiles :=
  (invariants_after_run env cfg filename tree n).2.still_open

/-! ## The level at which a document is processed -/

theorem mem_of_mem_TrimSuffix (s suffix : Str) (c : Char) (h : c ∈ TrimSuffix s suffix) :
    c ∈ s := by
  unfold TrimSuffix at h
  split at h
  · exact List.mem_of_mem_take h
  · exact h

theorem isMatchingFile_slash (env : Env) (name : Str) (c : WalkCall)
    (hnfc : ∀ s, '/' ∈ env.nfc s ↔ '/' ∈ s) (hname : '/' ∈ name)
    (hbase : hasBaseName c = true) : isMatchingFile env name c = false := by
  cases c with
  | failure path err => rfl
  | visit path info =>
    cases hm : isMatchingFile env name (WalkCall.visit path info) with
    | false => rfl
    | true =>
      exfalso
      obtain ⟨p, i, hpi, hd, hn⟩ := (isMatchingFile_iff env name _).1 hm
      simp only [WalkCall.visit.injEq] at hpi
      obtain ⟨_, rfl⟩ := hpi
      have h1 : '/' ∈ env.nfc (TrimSuffix info.Name (Ext info.Name)) := by
        rw [hn]; exact (hnfc name).2 hname
      have h2 : '/' ∈ info.Name := mem_of_mem_TrimSuffix _ _ _ ((hnfc _).1 h1)
      simp [hasBaseName, hd, h2] at hbase

theorem matchingPaths_slash (env : Env) (name : Str) (calls : List WalkCall)
    (hnfc : ∀ s, '/' ∈ env.nfc s ↔ '/' ∈ s) (hname : '/' ∈ name)
    (hbase : ∀ c ∈ calls, hasBaseName c = true) : matchingPaths env name calls = [] := by
  unfold matchingPaths
  have : (walkedCalls calls).filter (isMatchingFile env name) = [] := by
    rw [List.filter_eq_nil_iff]
    intro c hc
    have hc2 : c ∈ calls := (List.takeWhile_sublist _).subset hc
    rw [isMatchingFile_slash env name c hnfc hname (hbase c hc2)]
    simp
  rw [this]
  rfl

theorem findAndCopy_nil (env : Env) (file : Str) (dirs : List Str) (tree : Tree)
    (h : ∀ d ∈ dirs, (getFilePathByName env d file).1 = []) :
    (findAndCopy env file dirs tree).filePath = [] := by
  induction dirs with
  | nil => rfl
  | cons d ds ih =>
    simp only [findAndCopy, h d (List.mem_cons_self _ _), ne_eq, not_true_eq_false, if_false]
    exact ih (fun x hx => h x (List.mem_cons_of_mem _ hx))

/-- C19: when normalization neither adds nor removes `/` and the walks hand out
base names, a logical name with a `/` in it is never resolved:
`getFilePathByName` returns the empty path for it on every such directory, and
no item of that name is copied or expanded in a run of `parseFileBFS`. -/
theorem slash_name_never_resolved (env : Env) (cfg : Config) (filename : Str) (tree : Tree)
    (name : Str) (hnfc : ∀ s, '/' ∈ env.nfc s ↔ '/' ∈ s) (hname : '/' ∈ name)
    (hbase : ∀ dir ∈ cfg.FilesPaths, ∀ c ∈ env.walk dir, hasBaseName c = true) :
    (∀ dir, (∀ c ∈ env.walk dir, hasBaseName c = true) →
      (getFilePathByName env dir name).1 = []) ∧
    (∀ n, ∀ e ∈ (run env cfg n (initState filename tree)).trace, e.1.file = name →
      e.2.copied = false ∧ e.2.children = []) := by
  have hdir : ∀ dir, (∀ c ∈ env.walk dir, hasBaseName c = true) →
      (getFilePathByName env dir name).1 = [] := by
    intro dir hb
    rw [getFilePathByName_eq, matchingPaths_slash env name _ hnfc hname hb]
    rfl
  refine ⟨hdir, ?_⟩
  intro n e he hf
  have hres : resolvePath env cfg name = [] :=
    findAndCopy_nil env name cfg.FilesPaths [] (fun d hd => hdir d (hbase d hd))
  cases hp : e.2.processed with
  | false => exact Outcome.not_processed e.2 hp
  | true =>
    obtain ⟨h1, h2, _, _⟩ := (invariants_after_run env cfg filename tree n).1.faithful e he hp
    rw [hf] at h1 h2
    constructor
    · rw [h2]; simp [copySucceeds, hres]
    · rw [h1]; simp [linksOf, hres]

/-- The witness of `slash_name_never_resolved`: `Notes/Foo` in the sample vault. -/
theorem slash_name_never_resolved_witness :
    '/' ∈ "Notes/Foo".toList ∧
    (getFilePathByName sampleEnv "A".toList "Notes/Foo".toList).1 = [] ∧
    (∀ n, ∀ e ∈ (run sampleEnv (sampleCfg [] 3) n (initState "Notes/Foo".toList [])).trace,
      e.1.file = "Notes/Foo".toList → e.2.copied = false ∧ e.2.children = []) :=
  ⟨by decide,
    (slash_name_never_resolved sampleEnv (sampleCfg [] 3) "Notes/Foo".toList []
      "Notes/Foo".toList (fun _ => Iff.rfl) (by decide) (by decide)).1 "A".toList (by decide),
    (slash_name_never_resolved sampleEnv (sampleCfg [] 3) "Notes/Foo".toList []
      "Notes/Foo".toList (fun _ => Iff.rfl) (by decide) (by decide)).2⟩

end ObsidianExporter
